import Mathlib

/-!
Shallow embedding of `smallcancellation.py` (repository `smallcancellation`).

Words over a free group are lists of nonzero integers: the letter `a` of the
Python string representation is `1`, `A` (its inverse) is `-1`, `b` is `2`,
and so on.  Python string operations on relators translate as follows:
`reversed(p.swapcase())` is reverse-and-negate, `p in x` is contiguous-sublist
containment, `(r+r)[i:j]` is `((r ++ r).drop i).take j - i` (Python slices and
`List.take`/`List.drop` both clamp out-of-range indices).

The functions `fg.parseinputwords`, `fg.cyclic_reduce`, `wg.WGraph` and
`networkx` are external collaborator libraries (the spec scopes them out of
the core).  Entry points therefore take already-parsed words directly; the
cyclic-reduction test `r == F.cyclic_reduce(r)` is modelled by `cycReduced`,
and the Whitehead graph and shortest-path distance are modelled from the spec
(see `wgEdges` and `bfsDist` below).  A Python exception is modelled as
`none`; Python `float('inf')` and integer counts live in `ℕ∞`.
-/

/-- Words of the free group: lists of signed generator indices. -/
abbrev Word : Type := List ℤ

/-- Inverse of a word: reverse it and invert every letter.  This embeds the
Python idiom `''.join(reversed(p.swapcase()))`. -/
def winv (w : Word) : Word := w.reverse.map (fun a => -a)

/-- Modelled from the spec: the external check `r == F.cyclic_reduce(r)` of the
collaborator free-group library (`freegroups.freegroup`, not under `src/`).
Per the spec a word is cyclically reduced when no adjacent pair cancels, even
reading cyclically across the wrap from last letter to first. -/
def cycReduced (w : Word) : Bool :=
  (List.range w.length).all (fun j => !(w.getD ((j + 1) % w.length) 0 == -(w.getD j 0)))

/-- Python's substring test `p in x` on words: `p` occurs contiguously in `x`. -/
def isSub (p x : Word) : Bool :=
  (List.range (x.length + 1)).any (fun u => decide ((x.drop u).take p.length = p))

/-- The slice `(w+w)[s:s+L]`: the length-`L` cyclic subword of `w` starting at
index `s`, read off the doubled word. -/
def subAt (w : Word) (s L : ℕ) : Word := ((w ++ w).drop s).take L

/-- The interleaved list `[r1, r1⁻¹, r2, r2⁻¹, …]` built by
`itertools.chain.from_iterable(zip(...))` in the source. -/
def irels (rels : List Word) : List Word := rels.flatMap (fun r => [r, winv r])

/-- Doubling of each word in a list (`drels = [x+x for x in irels]`). -/
def dbls (ws : List Word) : List Word := ws.map (fun x => x ++ x)

/-- The relator scanned at step `i`: entry `2*i` of the interleaved list. -/
def relOf (ws : List Word) (i : ℕ) : Word := ws.getD (2 * i) []

/-- The test `p in (relator+relator)[startingindex+1 : len(relator)+startingindex+L-1]`
from `pieces`/`Cprimebound`: the candidate subword reoccurs at a later cyclic
offset of the same relator. -/
def windowHit (r : Word) (si L : ℕ) : Bool :=
  isSub (subAt r si L) (((r ++ r).drop (si + 1)).take ((r.length + si + L - 1) - (si + 1)))

/-- The test `any(p in drels[i] for i in range(2*relatorindex+1, len(drels)))`:
the candidate subword occurs in the doubled inverse of the current relator or
in any doubled later relator or inverse. -/
def laterHit (ws : List Word) (i : ℕ) (p : Word) : Bool :=
  ((dbls ws).drop (2 * i + 1)).any (fun x => isSub p x)

/-- Combined piece test used by both `pieces` and `Cprimebound`: the candidate
`(relator+relator)[startingindex:startingindex+L]` occurs elsewhere. -/
def hit (ws : List Word) (i si L : ℕ) : Bool :=
  windowHit (relOf ws i) si L || laterHit ws i (subAt (relOf ws i) si L)

/-- Loop order of `pieces`: relator index `i`, length `L` from `1` to `len`,
starting index `si` from `0` to `len - 1`. -/
def pieceAdds (rels : List Word) : List (ℕ × ℕ × ℕ) :=
  (List.range rels.length).flatMap (fun i =>
    (List.range (relOf (irels rels) i).length).flatMap (fun L0 =>
      (List.range (relOf (irels rels) i).length).map (fun si => (i, L0 + 1, si))))

/-- `set.add`: append the element unless it is already present. -/
def addOnce (acc : List Word) (p : Word) : List Word := if p ∈ acc then acc else acc ++ [p]

/-- Core of `pieces` (after the cyclic-reduction guard): every confirmed
recurring cyclic subword is recorded together with its inverse.  The Python
function accumulates a `set`; we accumulate a duplicate-free list, which
carries the same membership relation. -/
def piecesCore (rels : List Word) : List Word :=
  (pieceAdds rels).foldl (fun acc t =>
    if hit (irels rels) t.1 t.2.2 t.2.1 then
      addOnce (addOnce acc (subAt (relOf (irels rels) t.1) t.2.2 t.2.1))
        (winv (subAt (relOf (irels rels) t.1) t.2.2 t.2.1))
    else acc) []

/-- `pieces(relatorlist)`: raises (returns `none`) unless every relator is
cyclically reduced. -/
def pieces (rels : List Word) : Option (List Word) :=
  if rels.all cycReduced then some (piecesCore rels) else none

/-- `p` occurs at cyclic position `s` of the bi-infinite periodic word with
period `w` (the spec's reading of an occurrence in a cyclic word). -/
def occursAt (w : Word) (s : ℕ) (p : Word) : Prop :=
  s < w.length ∧ ∀ k < p.length, p.getD k 0 = w.getD ((s + k) % w.length) 0

instance occursAt.instDecidable (w : Word) (s : ℕ) (p : Word) :
    Decidable (occursAt w s p) := by
  unfold occursAt; exact inferInstance

/-- Total number of cyclic occurrences of `p` among the words of `ws`. -/
def occCount (ws : List Word) (p : Word) : ℕ :=
  (ws.map (fun w => ((List.range w.length).filter (fun s => decide (occursAt w s p))).length)).sum

/-- `p` has two distinct cyclic occurrences among the words of `ws`: the
spec's definition of a piece (occurrences at the same position of the same
word do not count as distinct). -/
def TwoOcc (ws : List Word) (p : Word) : Prop := 2 ≤ occCount ws p

instance TwoOcc.instDecidable (ws : List Word) (p : Word) : Decidable (TwoOcc ws p) := by
  unfold TwoOcc; exact inferInstance

/-- Inner recursion `min_string_piece_expression` of `C`: minimal expression of
`w` as a concatenation of pieces, abandoning branches at budget `b`.  The
Python recursion terminates because every piece is nonempty; here `fuel`
bounds the recursion depth (`fuel = w.length` always suffices). -/
def minTileF (P : List Word) : ℕ → Word → ℕ∞ → ℕ∞
  | fuel, w, b =>
    if w = [] then 0
    else
      match fuel with
      | 0 => b
      | fuel + 1 =>
        P.foldl (fun minexp p =>
          if p = w.take p.length then
            min minexp (1 + minTileF P fuel (w.drop p.length) (minexp - 1))
          else minexp) b

/-- Candidate (piece, startingindex) pairs enumerated by
`min_relator_piece_expression`: pieces `p` fitting in `r`, with the starting
indices in `range(len(r)-len(p)+1, len(r)+1)` where `p` matches
`(r+r)[si:si+len(p)]` (the first piece spans the wrap point). -/
def wrapCands (P : List Word) (r : Word) : List (Word × ℕ) :=
  P.flatMap (fun p =>
    if r.length < p.length then []
    else (((List.range p.length).map (fun j => r.length - p.length + 1 + j)).filter
           (fun si => decide (p = subAt r si p.length))).map (fun si => (p, si)))

/-- Specification side: `w` is the concatenation of `k` pieces from `P`. -/
def TilesTo (P : List Word) (w : Word) (k : ℕ) : Prop :=
  ∃ ps : List Word, (∀ p ∈ ps, p ∈ P) ∧ ps.flatten = w ∧ ps.length = k

/-- The remainder `whatsleft = (r+r)[si+len(p) : si+len(r)]` after placing the
wrap-spanning first piece of a candidate. -/
def wlOf (r : Word) (c : Word × ℕ) : Word :=
  ((r ++ r).drop (c.2 + c.1.length)).take ((c.2 + r.length) - (c.2 + c.1.length))

/-- Outer recursion `min_relator_piece_expression` of `C` over the candidate
list: an empty remainder returns `1` immediately; otherwise the budgeted
minimum is threaded through the remaining candidates. -/
def minRelExpr (P : List Word) (r : Word) : List (Word × ℕ) → ℕ∞ → ℕ∞
  | [], minexp => minexp
  | c :: rest, minexp =>
    if wlOf r c = [] then 1
    else minRelExpr P r rest
      (min minexp (1 + minTileF P (wlOf r c).length (wlOf r c) (minexp - 1)))

/-- Core of `C` (after the cyclic-reduction guard). -/
def Ccore (rels : List Word) (quit_at : ℕ∞) : ℕ∞ :=
  rels.foldl
    (fun m r => min m (minRelExpr (piecesCore rels) r (wrapCands (piecesCore rels) r) m))
    quit_at

/-- `C(relatorlist, quit_at)`: raises (returns `none`) unless every relator is
cyclically reduced. -/
def C (rels : List Word) (quit_at : ℕ∞) : Option ℕ∞ :=
  if rels.all cycReduced then some (Ccore rels quit_at) else none

/-- Undirected edge as a normalized ordered pair. -/
def eNorm (a b : ℤ) : ℤ × ℤ := if a ≤ b then (a, b) else (b, a)

/-- Modelled from the spec: the reduced Whitehead graph, whose construction
lives in the external collaborator `freegroups.whiteheadgraph` (reduced to a
simple graph by `networkx`; neither is under `src/`).  Per the spec its
vertices are directed generator-letters and its edges record the cyclically
adjacent letter pairs of the relators: each adjacent pair `(x, y)` joins `x`
to the inverse of `y`, and parallel edges are merged. -/
def wgEdges (rels : List Word) : List (ℤ × ℤ) :=
  rels.foldl (fun acc r =>
    (List.range r.length).foldl (fun acc2 j =>
      acc2.insert (eNorm (r.getD j 0) (-(r.getD ((j + 1) % r.length) 0)))) acc) []

/-- Endpoints of the listed edges. -/
def vertsOf (E : List (ℤ × ℤ)) : List ℤ :=
  E.foldl (fun acc e => (acc.insert e.1).insert e.2) []

/-- One breadth-first expansion step: add every vertex adjacent to the set. -/
def grow (E : List (ℤ × ℤ)) (vs : List ℤ) (S : Finset ℤ) : Finset ℤ :=
  S ∪ vs.toFinset.filter (fun b => ∃ a ∈ S, eNorm a b ∈ E)

/-- Iterated breadth-first search returning the first step count at which the
target is reached, or `⊤` when the fuel runs out. -/
def bfsAux (E : List (ℤ × ℤ)) (vs : List ℤ) (v : ℤ) : ℕ → Finset ℤ → ℕ → ℕ∞
  | 0, S, n => if v ∈ S then (n : ℕ∞) else ⊤
  | fuel + 1, S, n =>
    if v ∈ S then (n : ℕ∞) else bfsAux E vs v fuel (grow E vs S) (n + 1)

/-- Modelled from the spec: `nx.shortest_path_length`, the external graph
collaborator's unweighted shortest-path distance between `u` and `v`, with the
no-path outcome (`NetworkXNoPath`, caught and turned into `float('inf')` by
`T`) represented as `⊤`. -/
def bfsDist (E : List (ℤ × ℤ)) (u v : ℤ) : ℕ∞ :=
  bfsAux E (vertsOf E) v ((vertsOf E).length + 1) {u} 0

/-- Core of `T`: for every edge, remove it, measure the distance between its
endpoints in the remaining graph, and record `1 + distance`; return the
minimum candidate. -/
def Tcore (rels : List Word) : ℕ∞ :=
  (wgEdges rels).foldl
    (fun acc e => min acc (1 + bfsDist ((wgEdges rels).erase e) e.1 e.2)) ⊤

/-- `T(relatorlist)`: raises (returns `none`) unless every relator is
cyclically reduced. -/
def T (rels : List Word) : Option ℕ∞ :=
  if rels.all cycReduced then some (Tcore rels) else none

/-- `min(len(r) for r in rels)` (meaningful for nonempty input). -/
def minLen (rels : List Word) : ℕ := ((rels.map List.length).min?).getD 0

/-- `rels.sort(key=len)`: stable sort of the relators by length. -/
def sortRels (rels : List Word) : List Word :=
  rels.mergeSort (fun a b => decide (a.length ≤ b.length))

/-- The inner loop `for startingindex in range(len(relator))` of `Cprimebound`:
some starting index of relator `i` yields a piece of length `L`. -/
def hitAny (ws : List Word) (i L : ℕ) : Bool :=
  (List.range (relOf ws i).length).any (fun si => hit ws i si L)

/-- The descending search `for L in range(len(relator), lo, -1)` of
`Cprimebound`, returning the first (hence longest) length `L > lo` at which
some starting index yields a piece, scanning `L+1` downwards. -/
def firstHitL (ws : List Word) (i lo : ℕ) : ℕ → Option ℕ
  | 0 => none
  | L + 1 =>
    if L + 1 ≤ lo then none
    else if hitAny ws i (L + 1) then some (L + 1)
    else firstHitL ws i lo L

/-- The best (largest) piece length detected while scanning relator `i`, as a
ratio to the relator's length; `0` when the scan of relator `i` detects no
piece at all. -/
def dval (ws : List Word) (i : ℕ) : ℚ :=
  match firstHitL ws i 0 (relOf ws i).length with
  | none => 0
  | some L => (L : ℚ) / ((relOf ws i).length : ℚ)

/-- Main loop of `Cprimebound` over relator indices, threading the running
`biggestratio` and short-circuiting to `1` when the threshold is reached.
`int(biggestratio*len(relator))` is embedded as `num / den` of the exact
rational, which is Python's truncation on these nonnegative values. -/
def cpLoop (ws : List Word) (Lambda : ℚ) : List ℕ → ℚ → ℚ
  | [], br => br
  | i :: rest, br =>
    match firstHitL ws i
        (((br * ((relOf ws i).length : ℚ)).num /
          (((br * ((relOf ws i).length : ℚ)).den : ℤ))).toNat)
        (relOf ws i).length with
    | none => cpLoop ws Lambda rest br
    | some L =>
      if 1 / Lambda ≤ (L : ℚ) / ((relOf ws i).length : ℚ) then 1
      else cpLoop ws Lambda rest ((L : ℚ) / ((relOf ws i).length : ℚ))

/-- Core of `Cprimebound` (after the guards): start from the baseline ratio
`1/min length`, short-circuit if it already meets the threshold, then scan the
relators sorted shortest-first. -/
def CprimeboundCore (rels : List Word) (Lambda : ℚ) : ℚ :=
  if 1 / Lambda ≤ 1 / (minLen rels : ℚ) then 1
  else cpLoop (irels (sortRels rels)) Lambda (List.range rels.length) (1 / (minLen rels : ℚ))

/-- `Cprimebound(relatorlist, Lambda)`: raises (returns `none`) if a relator
is not cyclically reduced, or on the empty list (`min()` of an empty
sequence), or on an empty relator word (`Fraction(1, 0)`), or — after those —
on `Lambda = 0` (`ZeroDivisionError` from `Fraction(1, Lambda)`). -/
def Cprimebound (rels : List Word) (Lambda : ℚ) : Option ℚ :=
  if rels.all cycReduced then
    if rels = [] ∨ [] ∈ rels then none
    else if Lambda = 0 then none
    else some (CprimeboundCore rels Lambda)
  else none

/-- `smallcancellation(relatorlist, theCprimebound)`.  The estimate
`Cest = int(math.ceil(Fraction(cb.denominator, cb.numerator)))` is embedded as
`(den + num - 1) / num`, which is the ceiling of `den/num` whenever
`num > 0` — and `cb ≥ 1/6` forces `num ≥ 1` on every path that reads `Cest`. -/
def smallcancellation (rels : List Word) (theCprimebound : Option ℚ) : Option Bool :=
  if rels.all cycReduced then
    match (match theCprimebound with | none => Cprimebound rels 1 | some q => some q) with
    | none => none
    | some cb =>
      if cb < 1 / 6 then some true
      else
        if (5 ≤ ((cb.den : ℤ) + cb.num - 1) / cb.num ∧ 4 ≤ Tcore rels) ∨
           (4 ≤ ((cb.den : ℤ) + cb.num - 1) / cb.num ∧ 5 ≤ Tcore rels) ∨
           (3 ≤ ((cb.den : ℤ) + cb.num - 1) / cb.num ∧ 7 ≤ Tcore rels) then some true
        else
          if 7 ≤ Ccore rels 7 ∨ (5 ≤ Ccore rels 7 ∧ 4 ≤ Tcore rels) ∨
             (4 ≤ Ccore rels 7 ∧ 5 ≤ Tcore rels) ∨ (3 ≤ Ccore rels 7 ∧ 7 ≤ Tcore rels)
          then some true
          else some false
  else none

/-- Specification-side notion used by the amended piece characterization:
`x` is recorded while scanning relator `i` — it is a nonempty cyclic subword
of relator `i` (of length at most the relator's) that either occurs at a
second distinct cyclic position of that relator, or occurs as a contiguous
substring of the doubled word of a strictly later entry of the interleaved
relator/inverse list (the relator's own inverse included). -/
def PieceSpec (rels : List Word) (x : Word) : Prop :=
  ∃ i < rels.length, x ≠ [] ∧ x.length ≤ (rels.getD i []).length ∧
    ((∃ s t, s < t ∧ t < (rels.getD i []).length ∧ occursAt (rels.getD i []) s x ∧
        occursAt (rels.getD i []) t x) ∨
     (∃ s < (rels.getD i []).length, occursAt (rels.getD i []) s x ∧
       ∃ k, 2 * i + 1 ≤ k ∧ k < 2 * rels.length ∧
         isSub x ((irels rels).getD k [] ++ (irels rels).getD k []) = true))

/-- Specification side, for claim C3: a decomposition of a cyclic rotation of
the relator `r` into `k` pieces, the first piece spanning the wrap point
(starting index in `range(len(r)-len(p)+1, len(r)+1)`) and the rest read off
as ordinary concatenation. -/
def CDecomp (rels : List Word) (k : ℕ) : Prop :=
  ∃ r ∈ rels, ∃ (p : Word) (ps : List Word) (si : ℕ),
    p ∈ piecesCore rels ∧ (∀ q ∈ ps, q ∈ piecesCore rels) ∧
    p.length ≤ r.length ∧ r.length - p.length + 1 ≤ si ∧ si ≤ r.length ∧
    subAt r si r.length = p ++ ps.flatten ∧ k = ps.length + 1

/-- Adjacency in an undirected edge list. -/
def adjE (E : List (ℤ × ℤ)) (a b : ℤ) : Prop := eNorm a b ∈ E

/-- Graph reachability (reflexive-transitive closure of adjacency). -/
def Reach (E : List (ℤ × ℤ)) : ℤ → ℤ → Prop := Relation.ReflTransGen (adjE E)

/-- The graph contains a cycle: some edge lies on a cycle, i.e. its endpoints
stay connected after the edge is removed. -/
def HasCycle (E : List (ℤ × ℤ)) : Prop := ∃ e ∈ E, Reach (E.erase e) e.1 e.2

/-- Specification side, for claim C2: the true largest ratio of piece length
to length of a relator cyclically containing it, over all relators; `0` when
no relator contains a piece.  A piece is a word with two distinct cyclic
occurrences among the relators and their inverses. -/
def trueMax (rels : List Word) : ℚ :=
  (pieceAdds rels).foldl (fun acc t =>
    if TwoOcc (irels rels) (subAt (relOf (irels rels) t.1) t.2.2 t.2.1) then
      max acc ((t.2.1 : ℚ) / ((relOf (irels rels) t.1).length : ℚ))
    else acc) 0

lemma length_winv (w : Word) : (winv w).length = w.length := by
  simp [winv]

lemma winv_winv (w : Word) : winv (winv w) = w := by
  simp [winv, List.map_reverse, List.map_map]

lemma isSub_iff {p x : Word} :
    isSub p x = true ↔ ∃ u, u + p.length ≤ x.length ∧ (x.drop u).take p.length = p := by
  unfold isSub
  rw [List.any_eq_true]
  constructor
  · rintro ⟨u, hu, hdec⟩
    rw [List.mem_range] at hu
    have h := of_decide_eq_true hdec
    refine ⟨u, ?_, h⟩
    have hlen := congrArg List.length h
    simp only [List.length_take, List.length_drop] at hlen
    rcases Nat.le_total p.length (x.length - u) with h1 | h1
    · omega
    · rw [min_eq_right h1] at hlen
      omega
  · rintro ⟨u, hle, h⟩
    exact ⟨u, List.mem_range.mpr (by omega), decide_eq_true h⟩

lemma getD_append_self (w : Word) (j : ℕ) (h : j < 2 * w.length) :
    (w ++ w).getD j 0 = w.getD (j % w.length) 0 := by
  rcases Nat.lt_or_ge j w.length with hj | hj
  · rw [List.getD_append _ _ _ _ hj, Nat.mod_eq_of_lt hj]
  · have h1 : j - w.length < w.length := by omega
    have h2 : j % w.length = j - w.length := by
      conv =>
        lhs
        rw [show j = (j - w.length) + 1 * w.length by omega]
      rw [Nat.add_mul_mod_self_right, Nat.mod_eq_of_lt h1]
    rw [List.getD_append_right _ _ _ _ hj, h2]

lemma length_subAt (w : Word) (s L : ℕ) :
    (subAt w s L).length = min L (2 * w.length - s) := by
  simp [subAt, List.length_take, List.length_drop, List.length_append, two_mul]

lemma subAt_eq_map (w : Word) (s L : ℕ) (h : s + L ≤ 2 * w.length) :
    subAt w s L = (List.range L).map (fun k => (w ++ w).getD (s + k) 0) := by
  apply List.ext_getElem
  · rw [length_subAt]; simp; omega
  · intro k hk1 hk2
    have hkL : k < L := by rw [length_subAt] at hk1; omega
    have hsk : s + k < (w ++ w).length := by simp [List.length_append]; omega
    simp only [subAt, List.getElem_take, List.getElem_drop, List.getElem_map,
      List.getElem_range]
    rw [List.getD_eq_getElem _ _ hsk]

lemma occursAt_subAt {w p : Word} {s : ℕ} (h : occursAt w s p)
    (hfit : s + p.length ≤ 2 * w.length) : subAt w s p.length = p := by
  obtain ⟨hs, hocc⟩ := h
  rw [subAt_eq_map w s p.length hfit]
  apply List.ext_getElem
  · simp
  · intro k hk1 hk2
    simp only [List.getElem_map, List.getElem_range]
    rw [getD_append_self w (s + k) (by simp at hk1; omega), ← hocc k (by simpa using hk1),
      List.getD_eq_getElem _ _ hk2]

lemma subAt_occursAt (w : Word) (s L : ℕ) (hs : s < w.length)
    (hfit : s + L ≤ 2 * w.length) : occursAt w s (subAt w s L) := by
  refine ⟨hs, ?_⟩
  intro k hk
  rw [length_subAt] at hk
  have hkL : k < L := by omega
  rw [subAt_eq_map w s L hfit]
  rw [List.getD_eq_getElem _ _ (by simpa using hkL)]
  simp only [List.getElem_map, List.getElem_range]
  rw [getD_append_self w (s + k) (by omega)]

lemma slice_occurs {x p : Word} {v : ℕ} (hx : 0 < x.length)
    (hv : v + p.length ≤ 2 * x.length) (h : subAt x v p.length = p) :
    occursAt x (v % x.length) p := by
  refine ⟨Nat.mod_lt _ hx, ?_⟩
  intro k hk
  have h1 : (v % x.length + k) % x.length = (v + k) % x.length := by
    conv_lhs => rw [Nat.add_mod]
    conv_rhs => rw [Nat.add_mod]
    rw [Nat.mod_mod_of_dvd v (dvd_refl x.length)]
  rw [h1, ← getD_append_self x (v + k) (by omega)]
  conv_lhs => rw [← h, subAt_eq_map x v p.length hv]
  rw [List.getD_eq_getElem _ _ (by simpa using hk)]
  simp

lemma drop_take_take (l : List ℤ) (a W u L : ℕ) (hLW : u + L ≤ W) :
    ((((l.drop a).take W).drop u).take L) = (l.drop (a + u)).take L := by
  rw [List.drop_take, List.take_take, min_eq_left (by omega), List.drop_drop]

lemma windowHit_occurs {r : Word} {si L : ℕ} (hsi : si < r.length) (hL1 : 1 ≤ L)
    (hLn : L ≤ r.length) (h : windowHit r si L = true) :
    ∃ s', s' < r.length ∧ s' ≠ si ∧ occursAt r s' (subAt r si L) := by
  have hn : 0 < r.length := by omega
  have hplen : (subAt r si L).length = L := by rw [length_subAt]; omega
  rw [windowHit, isSub_iff] at h
  obtain ⟨u, hle, heq⟩ := h
  rw [hplen] at hle heq
  have hW : (r.length + si + L - 1) - (si + 1) = r.length + L - 2 := by omega
  rw [hW] at hle heq
  have hwin : (((r ++ r).drop (si + 1)).take (r.length + L - 2)).length =
      min (r.length + L - 2) (2 * r.length - (si + 1)) := by
    simp [List.length_take, List.length_drop, List.length_append]
    omega
  rw [hwin] at hle
  have hu1 : u + L ≤ r.length + L - 2 := by omega
  have hu2 : si + 1 + u + L ≤ 2 * r.length := by omega
  rw [drop_take_take _ _ _ _ _ hu1] at heq
  have hslice : subAt r (si + 1 + u) (subAt r si L).length = subAt r si L := by
    rw [hplen]
    exact heq
  have hocc := slice_occurs hn (by rw [hplen]; omega) hslice
  refine ⟨(si + 1 + u) % r.length, Nat.mod_lt _ hn, ?_, hocc⟩
  have hv : si + 1 + u < 2 * r.length := by omega
  rcases Nat.lt_or_ge (si + 1 + u) r.length with hc | hc
  · rw [Nat.mod_eq_of_lt hc]; omega
  · have : (si + 1 + u) % r.length = si + 1 + u - r.length := by
      conv_lhs => rw [show si + 1 + u = (si + 1 + u - r.length) + 1 * r.length by omega]
      rw [Nat.add_mul_mod_self_right, Nat.mod_eq_of_lt (by omega)]
    rw [this]; omega

lemma windowHit_of_two {r p : Word} {s t : ℕ} (hs : occursAt r s p) (ht : occursAt r t p)
    (hst : s < t) (htn : t < r.length) (hLn : p.length ≤ r.length) (hp : p ≠ []) :
    windowHit r s p.length = true := by
  have hn : 0 < r.length := by omega
  have hppos : 0 < p.length := List.length_pos.mpr hp
  have hfit_s : s + p.length ≤ 2 * r.length := by omega
  have hfit_t : t + p.length ≤ 2 * r.length := by omega
  have hslice_s : subAt r s p.length = p := occursAt_subAt hs hfit_s
  have hslice_t : subAt r t p.length = p := occursAt_subAt ht hfit_t
  rw [windowHit, isSub_iff]
  refine ⟨t - (s + 1), ?_, ?_⟩
  · rw [hslice_s]
    simp only [List.length_take, List.length_drop, List.length_append]
    omega
  · rw [hslice_s]
    have hW : (r.length + s + p.length - 1) - (s + 1) = r.length + p.length - 2 := by omega
    rw [hW, drop_take_take _ _ _ _ _ (by omega)]
    rw [show s + 1 + (t - (s + 1)) = t by omega]
    exact hslice_t

lemma isSub_dbl_iff {p x : Word} (hp : p ≠ []) :
    isSub p (x ++ x) = true ↔
      ∃ s, s < x.length ∧ occursAt x s p ∧ s + p.length ≤ 2 * x.length := by
  rw [isSub_iff]
  constructor
  · rintro ⟨u, hle, h⟩
    simp only [List.length_append] at hle
    have hx : x ≠ [] := by
      rintro rfl
      have hp0 : p.length = 0 := by
        simp only [List.length_nil] at hle
        omega
      exact hp (List.length_eq_zero.mp hp0)
    have hxpos : 0 < x.length := List.length_pos.mpr hx
    have hfit : u + p.length ≤ 2 * x.length := by omega
    have hslice : subAt x u p.length = p := by
      simpa [subAt] using h
    rcases Nat.lt_or_ge u x.length with hu | hu
    · exact ⟨u, hu, by rw [← hslice]; exact subAt_occursAt x u p.length hu hfit, hfit⟩
    · have hppos : 0 < p.length := List.length_pos.mpr hp
      have hu2 : u - x.length < x.length := by omega
      refine ⟨u - x.length, hu2, ⟨hu2, ?_⟩, by omega⟩
      intro k hk
      have hk2 : u + k < 2 * x.length := by omega
      have h1 : (u - x.length + k) % x.length = (u + k) % x.length := by
        conv =>
          rhs
          rw [show u + k = (u - x.length + k) + 1 * x.length by omega]
        rw [Nat.add_mul_mod_self_right]
      rw [h1, ← getD_append_self x (u + k) hk2]
      conv_lhs => rw [← hslice, subAt_eq_map x u p.length hfit]
      rw [List.getD_eq_getElem _ _ (by simpa using hk)]
      simp
  · rintro ⟨s, hs, hocc, hfit⟩
    refine ⟨s, by simp [List.length_append]; omega, ?_⟩
    have := occursAt_subAt hocc hfit
    simpa [subAt] using this

lemma length_irels (rels : List Word) : (irels rels).length = 2 * rels.length := by
  induction rels with
  | nil => simp [irels]
  | cons r rest ih =>
    simp [irels] at ih ⊢
    omega

lemma irels_getD_even (rels : List Word) (i : ℕ) (hi : i < rels.length) :
    (irels rels).getD (2 * i) [] = rels.getD i [] := by
  induction rels generalizing i with
  | nil => simp at hi
  | cons r rest ih =>
    cases i with
    | zero => simp [irels]
    | succ j =>
      have h1 : 2 * (j + 1) = (2 * j) + 1 + 1 := by omega
      simp only [irels, List.flatMap_cons, List.cons_append, h1, List.getD_cons_succ]
      exact ih j (by simpa using hi)

lemma irels_getD_odd (rels : List Word) (i : ℕ) (hi : i < rels.length) :
    (irels rels).getD (2 * i + 1) [] = winv (rels.getD i []) := by
  induction rels generalizing i with
  | nil => simp at hi
  | cons r rest ih =>
    cases i with
    | zero => simp [irels]
    | succ j =>
      have h1 : 2 * (j + 1) + 1 = (2 * j + 1) + 1 + 1 := by omega
      simp only [irels, List.flatMap_cons, List.cons_append, h1, List.getD_cons_succ]
      exact ih j (by simpa using hi)

lemma relOf_irels (rels : List Word) (i : ℕ) (hi : i < rels.length) :
    relOf (irels rels) i = rels.getD i [] := by
  rw [relOf, irels_getD_even rels i hi]

lemma mem_addOnce {acc : List Word} {p x : Word} :
    x ∈ addOnce acc p ↔ x ∈ acc ∨ x = p := by
  unfold addOnce
  split
  · constructor
    · exact Or.inl
    · rintro (h | rfl)
      · exact h
      · assumption
  · simp

lemma mem_piecesFold (l : List (ℕ × ℕ × ℕ)) (f : ℕ × ℕ × ℕ → Bool)
    (g : ℕ × ℕ × ℕ → Word) (x : Word) :
    ∀ acc, (x ∈ l.foldl (fun acc t =>
        if f t then addOnce (addOnce acc (g t)) (winv (g t)) else acc) acc ↔
      x ∈ acc ∨ ∃ t ∈ l, f t ∧ (x = g t ∨ x = winv (g t))) := by
  induction l with
  | nil => simp
  | cons t rest ih =>
    intro acc
    rw [List.foldl_cons, ih]
    by_cases hf : f t = true
    · rw [if_pos hf]
      simp only [mem_addOnce, List.mem_cons]
      constructor
      · rintro (((h | rfl) | rfl) | ⟨t', ht', hf', hx⟩)
        · exact Or.inl h
        · exact Or.inr ⟨t, Or.inl rfl, hf, Or.inl rfl⟩
        · exact Or.inr ⟨t, Or.inl rfl, hf, Or.inr rfl⟩
        · exact Or.inr ⟨t', Or.inr ht', hf', hx⟩
      · rintro (h | ⟨t', (rfl | ht'), hf', hx⟩)
        · exact Or.inl (Or.inl (Or.inl h))
        · rcases hx with rfl | rfl
          · exact Or.inl (Or.inl (Or.inr rfl))
          · exact Or.inl (Or.inr rfl)
        · exact Or.inr ⟨t', ht', hf', hx⟩
    · rw [if_neg hf]
      constructor
      · rintro (h | ⟨t', ht', hf', hx⟩)
        · exact Or.inl h
        · exact Or.inr ⟨t', List.mem_cons_of_mem _ ht', hf', hx⟩
      · rintro (h | ⟨t', ht', hf', hx⟩)
        · exact Or.inl h
        · rcases List.mem_cons.mp ht' with rfl | ht2
          · exact absurd hf' hf
          · exact Or.inr ⟨t', ht2, hf', hx⟩

lemma mem_pieceAdds {rels : List Word} {t : ℕ × ℕ × ℕ} :
    t ∈ pieceAdds rels ↔ ∃ i < rels.length, ∃ L0 < (relOf (irels rels) i).length,
      ∃ si < (relOf (irels rels) i).length, t = (i, L0 + 1, si) := by
  simp only [pieceAdds, List.mem_flatMap, List.mem_map, List.mem_range]
  constructor
  · rintro ⟨i, hi, L0, hL0, si, hsi, rfl⟩
    exact ⟨i, hi, L0, hL0, si, hsi, rfl⟩
  · rintro ⟨i, hi, L0, hL0, si, hsi, rfl⟩
    exact ⟨i, hi, L0, hL0, si, hsi, rfl⟩

lemma mem_piecesCore_iff {rels : List Word} {x : Word} :
    x ∈ piecesCore rels ↔ ∃ i < rels.length, ∃ L, 1 ≤ L ∧ L ≤ (relOf (irels rels) i).length ∧
      ∃ si < (relOf (irels rels) i).length, hit (irels rels) i si L = true ∧
        (x = subAt (relOf (irels rels) i) si L ∨ x = winv (subAt (relOf (irels rels) i) si L)) := by
  rw [piecesCore, mem_piecesFold]
  simp only [List.not_mem_nil, false_or]
  constructor
  · rintro ⟨t, ht, hf, hx⟩
    rw [mem_pieceAdds] at ht
    obtain ⟨i, hi, L0, hL0, si, hsi, rfl⟩ := ht
    exact ⟨i, hi, L0 + 1, by omega, by omega, si, hsi, hf, hx⟩
  · rintro ⟨i, hi, L, hL1, hLn, si, hsi, hf, hx⟩
    refine ⟨(i, L, si), ?_, hf, hx⟩
    rw [mem_pieceAdds]
    exact ⟨i, hi, L - 1, by omega, si, hsi, by simp [Nat.sub_add_cancel hL1]⟩

lemma laterHit_iff {ws : List Word} {i : ℕ} {p : Word} :
    laterHit ws i p = true ↔ ∃ k, 2 * i + 1 ≤ k ∧ k < ws.length ∧
      isSub p (ws.getD k [] ++ ws.getD k []) = true := by
  unfold laterHit dbls
  rw [List.any_eq_true]
  constructor
  · rintro ⟨y, hy, hs⟩
    rw [← List.map_drop, List.mem_map] at hy
    obtain ⟨w, hw, rfl⟩ := hy
    rw [List.mem_iff_getElem] at hw
    obtain ⟨j, hj, rfl⟩ := hw
    rw [List.getElem_drop] at hs
    have hjlen : 2 * i + 1 + j < ws.length := by rw [List.length_drop] at hj; omega
    refine ⟨2 * i + 1 + j, by omega, hjlen, ?_⟩
    rw [List.getD_eq_getElem _ _ hjlen]
    exact hs
  · rintro ⟨k, hk1, hk2, hs⟩
    refine ⟨ws.getD k [] ++ ws.getD k [], ?_, hs⟩
    rw [← List.map_drop, List.mem_map]
    refine ⟨ws.getD k [], ?_, rfl⟩
    rw [List.mem_iff_getElem]
    refine ⟨k - (2 * i + 1), by rw [List.length_drop]; omega, ?_⟩
    rw [List.getElem_drop, List.getD_eq_getElem _ _ (by omega)]
    congr 1
    omega

lemma scanFound_iff_pieceSpec {rels : List Word} {x : Word} :
    (∃ i < rels.length, ∃ L, 1 ≤ L ∧ L ≤ (relOf (irels rels) i).length ∧
      ∃ si < (relOf (irels rels) i).length, hit (irels rels) i si L = true ∧
        x = subAt (relOf (irels rels) i) si L) ↔ PieceSpec rels x := by
  constructor
  · rintro ⟨i, hi, L, hL1, hLn, si, hsi, hhit, rfl⟩
    have hr : relOf (irels rels) i = rels.getD i [] := relOf_irels rels i hi
    rw [hit, Bool.or_eq_true] at hhit
    rw [hr] at hLn hsi hhit ⊢
    have hxlen : (subAt (rels.getD i []) si L).length = L := by rw [length_subAt]; omega
    have hxne : subAt (rels.getD i []) si L ≠ [] := by
      intro h
      rw [h] at hxlen
      simp at hxlen
      omega
    refine ⟨i, hi, hxne, by omega, ?_⟩
    rcases hhit with hw | hl
    · obtain ⟨s2, hs2n, hs2ne, hocc2⟩ := windowHit_occurs hsi hL1 hLn hw
      have hocc0 := subAt_occursAt (rels.getD i []) si L hsi (by omega)
      left
      rcases Nat.lt_or_ge s2 si with hlt | hge
      · exact ⟨s2, si, hlt, hsi, hocc2, hocc0⟩
      · exact ⟨si, s2, by omega, hs2n, hocc0, hocc2⟩
    · rw [laterHit_iff] at hl
      obtain ⟨k, hk1, hk2, hs⟩ := hl
      right
      rw [length_irels] at hk2
      exact ⟨si, hsi, subAt_occursAt _ si L hsi (by omega), k, hk1, hk2, hs⟩
  · rintro ⟨i, hi, hne, hlen, hcase⟩
    have hr : relOf (irels rels) i = rels.getD i [] := relOf_irels rels i hi
    rcases hcase with ⟨s, t, hst, htn, hos, hot⟩ | ⟨s, hsn, hos, k, hk1, hk2, hs⟩
    · refine ⟨i, hi, x.length, List.length_pos.mpr hne, by rw [hr]; exact hlen, s, ?_, ?_, ?_⟩
      · rw [hr]; omega
      · rw [hit, Bool.or_eq_true]
        left
        rw [hr]
        exact windowHit_of_two hos hot hst htn hlen hne
      · rw [hr]
        exact (occursAt_subAt hos (by omega)).symm
    · refine ⟨i, hi, x.length, List.length_pos.mpr hne, by rw [hr]; exact hlen, s, ?_, ?_, ?_⟩
      · rw [hr]; exact hsn
      · rw [hit, Bool.or_eq_true]
        right
        rw [laterHit_iff]
        refine ⟨k, hk1, by rw [length_irels]; exact hk2, ?_⟩
        rw [hr, occursAt_subAt hos (by omega)]
        exact hs
      · rw [hr]
        exact (occursAt_subAt hos (by omega)).symm

lemma mem_piecesCore_occ {rels : List Word} {x : Word} :
    x ∈ piecesCore rels ↔ PieceSpec rels x ∨ PieceSpec rels (winv x) := by
  rw [mem_piecesCore_iff]
  constructor
  · rintro ⟨i, hi, L, hL1, hLn, si, hsi, hhit, hx | hx⟩
    · exact Or.inl (scanFound_iff_pieceSpec.mp ⟨i, hi, L, hL1, hLn, si, hsi, hhit, hx⟩)
    · refine Or.inr (scanFound_iff_pieceSpec.mp ⟨i, hi, L, hL1, hLn, si, hsi, hhit, ?_⟩)
      rw [hx, winv_winv]
  · rintro (h | h)
    · obtain ⟨i, hi, L, hL1, hLn, si, hsi, hhit, hx⟩ := scanFound_iff_pieceSpec.mpr h
      exact ⟨i, hi, L, hL1, hLn, si, hsi, hhit, Or.inl hx⟩
    · obtain ⟨i, hi, L, hL1, hLn, si, hsi, hhit, hx⟩ := scanFound_iff_pieceSpec.mpr h
      refine ⟨i, hi, L, hL1, hLn, si, hsi, hhit, Or.inr ?_⟩
      rw [← hx, winv_winv]

lemma piecesCore_inv_mem {rels : List Word} {p : Word} (h : p ∈ piecesCore rels) :
    winv p ∈ piecesCore rels := by
  rw [mem_piecesCore_iff] at h ⊢
  obtain ⟨i, hi, L, hL1, hLn, si, hsi, hhit, hx⟩ := h
  refine ⟨i, hi, L, hL1, hLn, si, hsi, hhit, ?_⟩
  rcases hx with rfl | rfl
  · exact Or.inr rfl
  · exact Or.inl (winv_winv _)

/-- C6: for every nonempty list of cyclically reduced relators, the set
returned by `pieces` is closed under inversion: with every word it contains
the reverse-inverted word. -/
theorem pieces_closed_under_inversion (rels : List Word) (hne : rels ≠ [])
    (hcyc : ∀ r ∈ rels, cycReduced r = true) (ps : List Word) (hps : pieces rels = some ps)
    (p : Word) (hp : p ∈ ps) : winv p ∈ ps := by
  rw [pieces, if_pos (List.all_eq_true.mpr hcyc)] at hps
  cases hps
  exact piecesCore_inv_mem hp

/-- Witness for `pieces_closed_under_inversion` at a concrete input. -/
theorem pieces_closed_under_inversion_witness :
    winv [1] ∈ piecesCore [[1, 2, -1, -2]] :=
  pieces_closed_under_inversion [[1, 2, -1, -2]] (by decide) (by decide)
    (piecesCore [[1, 2, -1, -2]]) rfl [1] (by decide)

/-- C7: a relator list containing a non-cyclically-reduced relator makes every
public entry point (`pieces`, `Cprimebound`, `T`, `C`, `smallcancellation`)
raise the input-contract error (modelled as `none`) instead of returning a
value; no silent cyclic reduction happens. -/
theorem entry_points_reject_unreduced (rels : List Word)
    (h : ∃ r ∈ rels, cycReduced r = false) :
    pieces rels = none ∧ (∀ Lambda, Cprimebound rels Lambda = none) ∧ T rels = none ∧
      (∀ q, C rels q = none) ∧ (∀ pre, smallcancellation rels pre = none) := by
  have hall : rels.all cycReduced = false := by
    rw [List.all_eq_false]
    obtain ⟨r, hr, hfalse⟩ := h
    exact ⟨r, hr, by rw [hfalse]; simp⟩
  refine ⟨?_, ?_, ?_, ?_, ?_⟩
  · simp [pieces, hall]
  · intro Lambda; simp [Cprimebound, hall]
  · simp [T, hall]
  · intro q; simp [C, hall]
  · intro pre; simp [smallcancellation, hall]

/-- Witness for `entry_points_reject_unreduced` at a concrete input. -/
theorem entry_points_reject_unreduced_witness :
    pieces [[1, -1]] = none ∧ (∀ Lambda, Cprimebound [[1, -1]] Lambda = none) ∧
      T [[1, -1]] = none ∧ (∀ q, C [[1, -1]] q = none) ∧
      (∀ pre, smallcancellation [[1, -1]] pre = none) :=
  entry_points_reject_unreduced [[1, -1]] (by decide)

/-- C8 counterexample: on the empty relator list, `pieces` returns the empty
set (and `C` and `T` also return values) rather than raising, so it is false
that every public entry point raises an input-contract violation there. -/
theorem empty_input_not_always_rejected :
    pieces ([] : List Word) = some [] ∧ (∀ q, C [] q = some q) ∧ T [] = some ⊤ := by
  refine ⟨rfl, fun q => ?_, rfl⟩
  simp [C, Ccore]

/-- C8 amended: on the empty relator list only `Cprimebound` (whose `min` over
an empty sequence raises) and `smallcancellation` (which calls it) raise;
`pieces` returns the empty set, `C` returns `quit_at`, and `T` returns
infinity. -/
theorem empty_input_behavior :
    (∀ Lambda, Cprimebound [] Lambda = none) ∧ smallcancellation [] none = none ∧
      pieces ([] : List Word) = some [] ∧ (∀ q, C [] q = some q) ∧ T [] = some ⊤ := by
  refine ⟨fun Lambda => ?_, ?_, rfl, fun q => ?_, rfl⟩
  · simp [Cprimebound]
  · simp [smallcancellation, Cprimebound]
  · simp [C, Ccore]

/-- C4 counterexample: for the cyclically reduced relators `ab, aabab`, the
word `abab` has two distinct cyclic occurrences among the relators and their
inverses (at position 0 of `ab` read cyclically and position 1 of `aabab`),
yet `pieces` does not return it, so membership in `pieces(relatorlist)` is not
equivalent to having two distinct cyclic occurrences. -/
theorem pieces_not_the_cyclic_occurrence_set :
    pieces [[1, 2], [1, 1, 2, 1, 2]] = some (piecesCore [[1, 2], [1, 1, 2, 1, 2]]) ∧
      ¬ (([1, 2, 1, 2] ∈ piecesCore [[1, 2], [1, 1, 2, 1, 2]]) ↔
         TwoOcc (irels [[1, 2], [1, 1, 2, 1, 2]]) [1, 2, 1, 2]) := by
  constructor
  · rfl
  · decide

/-- C4 amended: a word is in `pieces(relatorlist)` exactly when it or its
inverse is a nonempty cyclic subword of some relator (no longer than that
relator) which either reoccurs at a second distinct cyclic position of the
same relator, or occurs as a contiguous substring of the doubled word of a
later entry of the interleaved relator/inverse list (the relator's own
inverse included). -/
theorem pieces_membership_characterization (rels : List Word) (hne : rels ≠ [])
    (hcyc : ∀ r ∈ rels, cycReduced r = true) (ps : List Word) (hps : pieces rels = some ps)
    (x : Word) : x ∈ ps ↔ PieceSpec rels x ∨ PieceSpec rels (winv x) := by
  rw [pieces, if_pos (List.all_eq_true.mpr hcyc)] at hps
  cases hps
  exact mem_piecesCore_occ

/-- Witness for `pieces_membership_characterization` at a concrete input. -/
theorem pieces_membership_characterization_witness :
    [1] ∈ piecesCore [[1, 2], [1, 1, 2, 1, 2]] ↔
      PieceSpec [[1, 2], [1, 1, 2, 1, 2]] [1] ∨
        PieceSpec [[1, 2], [1, 1, 2, 1, 2]] (winv [1]) :=
  pieces_membership_characterization [[1, 2], [1, 1, 2, 1, 2]] (by decide) (by decide)
    (piecesCore [[1, 2], [1, 1, 2, 1, 2]]) rfl [1]

lemma enat_sInf_mem {S : Set ℕ∞} (h : S.Nonempty) : sInf S ∈ S := by
  by_cases htop : ∃ n : ℕ, (n : ℕ∞) ∈ S
  · obtain ⟨n, hn⟩ := htop
    have hS' : {m : ℕ | (m : ℕ∞) ∈ S}.Nonempty := ⟨n, hn⟩
    have hmem : ((sInf {m : ℕ | (m : ℕ∞) ∈ S} : ℕ) : ℕ∞) ∈ S := Nat.sInf_mem hS'
    have : sInf S = ((sInf {m : ℕ | (m : ℕ∞) ∈ S} : ℕ) : ℕ∞) := by
      apply le_antisymm (sInf_le hmem)
      apply le_sInf
      intro y hy
      induction y using ENat.recTopCoe with
      | top => exact le_top
      | coe k => exact_mod_cast Nat.sInf_le (show k ∈ {m : ℕ | (m : ℕ∞) ∈ S} from hy)
    rw [this]
    exact hmem
  · obtain ⟨x, hx⟩ := h
    have hxtop : x = ⊤ := by
      induction x using ENat.recTopCoe with
      | top => rfl
      | coe k => exact absurd ⟨k, hx⟩ htop
    subst hxtop
    have : sInf S = ⊤ := by
      apply le_antisymm le_top
      apply le_sInf
      intro y hy
      induction y using ENat.recTopCoe with
      | top => exact le_refl _
      | coe k => exact absurd ⟨k, hy⟩ htop
    rw [this]
    exact hx

lemma enat_min_budget (b t : ℕ∞) : min b (1 + min (b - 1) t) = min b (1 + t) := by
  induction b using ENat.recTopCoe with
  | top =>
    have h1 : (⊤ : ℕ∞) - 1 = ⊤ := by simp
    rw [h1]
    simp
  | coe n =>
    cases n with
    | zero =>
      simp
    | succ m =>
      have hsub : ((m + 1 : ℕ) : ℕ∞) - 1 = (m : ℕ∞) := by
        simpa using (ENat.coe_sub (m + 1) 1).symm
      rw [hsub]
      have hcast : ((m + 1 : ℕ) : ℕ∞) = (m : ℕ∞) + 1 := by push_cast; ring
      rw [hcast]
      have hdist : (1 : ℕ∞) + min (m : ℕ∞) t = min ((m : ℕ∞) + 1) (1 + t) := by
        rw [← min_add_add_left]
        congr 1
        ring
      rw [hdist, ← min_assoc, min_self]

lemma minTileF_nil (P : List Word) (fuel : ℕ) (b : ℕ∞) : minTileF P fuel [] b = 0 := by
  rw [minTileF.eq_def]
  simp

lemma minTileF_succ (P : List Word) (f : ℕ) (w : Word) (b : ℕ∞) (hw : w ≠ []) :
    minTileF P (f + 1) w b = P.foldl (fun minexp p =>
      if p = w.take p.length then
        min minexp (1 + minTileF P f (w.drop p.length) (minexp - 1))
      else minexp) b := by
  rw [minTileF.eq_def]
  simp [hw]

lemma foldl_le_init {α : Type} (g : ℕ∞ → α → ℕ∞) (hg : ∀ m a, g m a ≤ m) :
    ∀ (l : List α) (b : ℕ∞), l.foldl g b ≤ b := by
  intro l
  induction l with
  | nil => intro b; simp
  | cons a rest ih => intro b; exact le_trans (ih (g b a)) (hg b a)

lemma foldl_le_of_mem {α : Type} (g : ℕ∞ → α → ℕ∞) (hdec : ∀ m a, g m a ≤ m)
    {p : α} {C0 : ℕ∞} (hp : ∀ m, g m p ≤ C0) :
    ∀ (l : List α) (b : ℕ∞), p ∈ l → l.foldl g b ≤ C0 := by
  intro l
  induction l with
  | nil => intro b h; simp at h
  | cons a rest ih =>
    intro b hmem
    rcases List.mem_cons.mp hmem with rfl | hmem2
    · exact le_trans (foldl_le_init g hdec rest (g b p)) (hp b)
    · exact ih (g b a) hmem2

lemma foldl_ge_inv {α : Type} (g : ℕ∞ → α → ℕ∞) (I : ℕ∞) :
    ∀ (l : List α), (∀ m a, a ∈ l → I ≤ m → I ≤ g m a) →
      ∀ b, I ≤ b → I ≤ l.foldl g b := by
  intro l
  induction l with
  | nil => intro _ b hb; simpa using hb
  | cons a rest ih =>
    intro hstep b hb
    exact ih (fun m x hx hm => hstep m x (List.mem_cons_of_mem _ hx) hm) (g b a)
      (hstep b a (by simp) hb)

lemma minTileF_le_budget (P : List Word) (fuel : ℕ) (w : Word) (b : ℕ∞) :
    minTileF P fuel w b ≤ b := by
  by_cases hw : w = []
  · subst hw; rw [minTileF_nil]; exact zero_le b
  · cases fuel with
    | zero =>
      rw [minTileF.eq_def]
      simp [hw]
    | succ f =>
      rw [minTileF_succ P f w b hw]
      apply foldl_le_init
      intro m p
      split
      · exact min_le_left _ _
      · exact le_refl _

lemma minTileF_le_tiling (P : List Word) (hP : ∀ p ∈ P, p ≠ []) :
    ∀ (ps : List Word) (fuel : ℕ) (b : ℕ∞), (∀ p ∈ ps, p ∈ P) →
      ps.flatten.length ≤ fuel → minTileF P fuel ps.flatten b ≤ (ps.length : ℕ∞) := by
  intro ps
  induction ps with
  | nil => intro fuel b _ _; simp [minTileF_nil]
  | cons p rest ih =>
    intro fuel b hmem hfuel
    have hpP : p ∈ P := hmem p (by simp)
    have hpne : p ≠ [] := hP p hpP
    have hppos : 0 < p.length := List.length_pos.mpr hpne
    have hw : (p :: rest).flatten = p ++ rest.flatten := List.flatten_cons
    have hwne : (p :: rest).flatten ≠ [] := by
      rw [hw]
      intro hc
      exact hpne (List.append_eq_nil.mp hc).1
    have hlen : (p :: rest).flatten.length = p.length + rest.flatten.length := by
      rw [hw, List.length_append]
    obtain ⟨f, rfl⟩ : ∃ f, fuel = f + 1 := by
      cases fuel with
      | zero => exfalso; rw [hlen] at hfuel; omega
      | succ f => exact ⟨f, rfl⟩
    rw [minTileF_succ P f _ b hwne]
    have hcast : ((p :: rest).length : ℕ∞) = 1 + (rest.length : ℕ∞) := by
      rw [List.length_cons]
      push_cast
      ring
    rw [hcast]
    refine foldl_le_of_mem _ (fun m a => ?_) (p := p) (fun m => ?_) _ b hpP
    · split
      · exact min_le_left _ _
      · exact le_refl _
    · have hcond : p = ((p :: rest).flatten).take p.length := by
        rw [hw, List.take_left]
      rw [if_pos hcond]
      refine le_trans (min_le_right _ _) ?_
      have hdrop : ((p :: rest).flatten).drop p.length = rest.flatten := by
        rw [hw, List.drop_left]
      rw [hdrop]
      exact add_le_add_left (ih f (m - 1) (fun q hq => hmem q (by simp [hq])) (by omega)) 1

lemma le_minTileF (P : List Word) (hP : ∀ p ∈ P, p ≠ []) :
    ∀ (fuel : ℕ) (w : Word) (b : ℕ∞), w.length ≤ fuel → w ≠ [] →
      min b (sInf {x : ℕ∞ | ∃ k : ℕ, TilesTo P w k ∧ x = (k : ℕ∞)}) ≤ minTileF P fuel w b := by
  intro fuel
  induction fuel with
  | zero =>
    intro w b hfuel hw
    exfalso
    exact hw (List.eq_nil_of_length_eq_zero (by omega))
  | succ f ih =>
    intro w b hfuel hw
    rw [minTileF_succ P f w b hw]
    refine foldl_ge_inv _ _ _ (fun m p hpP hm => ?_) b (min_le_left _ _)
    by_cases hcond : p = w.take p.length
    · rw [if_pos hcond]
      rw [le_min_iff]
      refine ⟨hm, ?_⟩
      have hpne := hP p hpP
      have hppos : 0 < p.length := List.length_pos.mpr hpne
      by_cases hdrop : w.drop p.length = []
      · rw [hdrop, minTileF_nil]
        have hwp : w = p := by
          conv_lhs => rw [← List.take_append_drop p.length w]
          rw [hdrop, List.append_nil, ← hcond]
        refine le_trans (min_le_right _ _) ?_
        have h1 : (1 : ℕ∞) ∈ {x : ℕ∞ | ∃ k : ℕ, TilesTo P w k ∧ x = (k : ℕ∞)} := by
          refine ⟨1, ⟨[p], ?_, ?_, rfl⟩, by norm_num⟩
          · intro q hq
            rw [List.mem_singleton] at hq
            subst hq
            exact hpP
          · simp [hwp]
        exact sInf_le h1
      · have hih := ih (w.drop p.length) (m - 1) (by rw [List.length_drop]; omega) hdrop
        have hext : sInf {x : ℕ∞ | ∃ k : ℕ, TilesTo P w k ∧ x = (k : ℕ∞)} ≤
            1 + sInf {x : ℕ∞ | ∃ k : ℕ, TilesTo P (w.drop p.length) k ∧ x = (k : ℕ∞)} := by
          rcases Set.eq_empty_or_nonempty
              {x : ℕ∞ | ∃ k : ℕ, TilesTo P (w.drop p.length) k ∧ x = (k : ℕ∞)} with he | hne
          · rw [he, sInf_empty]
            simp
          · have hmem := enat_sInf_mem hne
            obtain ⟨k, ⟨ps2, hps2P, hps2f, hps2len⟩, hkx⟩ := hmem
            rw [hkx]
            have hnew : TilesTo P w (k + 1) := by
              refine ⟨p :: ps2, ?_, ?_, by simp [hps2len]⟩
              · intro q hq
                rcases List.mem_cons.mp hq with rfl | hq2
                · exact hpP
                · exact hps2P q hq2
              · have hweq : p ++ w.drop p.length = w := by
                  conv_rhs => rw [← List.take_append_drop p.length w]
                  rw [← hcond]
                rw [List.flatten_cons, hps2f, hweq]
            refine le_trans (sInf_le ⟨k + 1, hnew, rfl⟩) ?_
            push_cast
            rw [add_comm]
        have hbudget : 1 + min (m - 1)
            (sInf {x : ℕ∞ | ∃ k : ℕ, TilesTo P (w.drop p.length) k ∧ x = (k : ℕ∞)}) ≥
            min m (1 + sInf {x : ℕ∞ | ∃ k : ℕ, TilesTo P (w.drop p.length) k ∧ x = (k : ℕ∞)}) := by
          rw [← enat_min_budget m]
          exact min_le_right _ _
        refine le_trans ?_ (add_le_add_left hih 1)
        refine le_trans ?_ hbudget
        rw [le_min_iff]
        exact ⟨hm, le_trans (min_le_right _ _) hext⟩
    · rw [if_neg hcond]
      exact hm

lemma minTileF_eq (P : List Word) (hP : ∀ p ∈ P, p ≠ []) (fuel : ℕ) (w : Word) (b : ℕ∞)
    (hfuel : w.length ≤ fuel) (hw : w ≠ []) :
    minTileF P fuel w b =
      min b (sInf {x : ℕ∞ | ∃ k : ℕ, TilesTo P w k ∧ x = (k : ℕ∞)}) := by
  apply le_antisymm
  · rw [le_min_iff]
    refine ⟨minTileF_le_budget P fuel w b, ?_⟩
    apply le_sInf
    rintro x ⟨k, ⟨ps, hpsP, hpsf, hpslen⟩, rfl⟩
    subst hpsf
    rw [← hpslen]
    exact minTileF_le_tiling P hP ps fuel b hpsP hfuel
  · exact le_minTileF P hP fuel w b hfuel hw

lemma tilesTo_nil_iff (P : List Word) (hP : ∀ p ∈ P, p ≠ []) (k : ℕ) :
    TilesTo P [] k ↔ k = 0 := by
  constructor
  · rintro ⟨ps, hpsP, hpsf, rfl⟩
    cases ps with
    | nil => rfl
    | cons q qs =>
      exfalso
      rw [List.flatten_cons] at hpsf
      have := hP q (hpsP q (by simp))
      exact this (List.append_eq_nil.mp hpsf).1
  · rintro rfl
    exact ⟨[], by simp, rfl, rfl⟩

lemma enat_sInf_add_one (Q : ℕ → Prop) :
    sInf {x : ℕ∞ | ∃ k : ℕ, Q k ∧ x = (k : ℕ∞) + 1} =
      1 + sInf {x : ℕ∞ | ∃ k : ℕ, Q k ∧ x = (k : ℕ∞)} := by
  apply le_antisymm
  · rcases Set.eq_empty_or_nonempty {x : ℕ∞ | ∃ k : ℕ, Q k ∧ x = (k : ℕ∞)} with he | hne
    · have he2 : {x : ℕ∞ | ∃ k : ℕ, Q k ∧ x = (k : ℕ∞) + 1} = ∅ := by
        rw [Set.eq_empty_iff_forall_not_mem] at he ⊢
        rintro x ⟨k, hQ, rfl⟩
        exact he (k : ℕ∞) ⟨k, hQ, rfl⟩
      rw [he, he2, sInf_empty]
      simp
    · obtain ⟨k0, hQ0, hkx⟩ := enat_sInf_mem hne
      rw [hkx, add_comm]
      exact sInf_le ⟨k0, hQ0, rfl⟩
  · apply le_sInf
    rintro x ⟨k, hQ, rfl⟩
    have : sInf {x : ℕ∞ | ∃ k : ℕ, Q k ∧ x = (k : ℕ∞)} ≤ (k : ℕ∞) :=
      sInf_le ⟨k, hQ, rfl⟩
    calc 1 + sInf {x : ℕ∞ | ∃ k : ℕ, Q k ∧ x = (k : ℕ∞)} ≤ 1 + (k : ℕ∞) :=
          add_le_add_left this 1
      _ = (k : ℕ∞) + 1 := add_comm _ _

lemma minRelExpr_le_or_one (P : List Word) (r : Word) :
    ∀ (cands : List (Word × ℕ)) (m : ℕ∞),
      minRelExpr P r cands m ≤ m ∨ minRelExpr P r cands m = 1 := by
  intro cands
  induction cands with
  | nil => intro m; left; rw [minRelExpr]
  | cons c rest ih =>
    intro m
    rw [minRelExpr]
    split
    · right; rfl
    · rcases ih (min m (1 + minTileF P (wlOf r c).length (wlOf r c) (m - 1))) with h | h
      · left; exact le_trans h (min_le_left _ _)
      · right; exact h

lemma minRelExpr_min (P : List Word) (hP : ∀ p ∈ P, p ≠ []) (r : Word) :
    ∀ (cands : List (Word × ℕ)) (b : ℕ∞),
      min b (minRelExpr P r cands b) =
        min b (sInf {x : ℕ∞ | ∃ c ∈ cands, ∃ k : ℕ, TilesTo P (wlOf r c) k ∧
          x = (k : ℕ∞) + 1}) := by
  intro cands
  induction cands with
  | nil =>
    intro b
    rw [minRelExpr]
    have : {x : ℕ∞ | ∃ c ∈ ([] : List (Word × ℕ)), ∃ k : ℕ, TilesTo P (wlOf r c) k ∧
        x = (k : ℕ∞) + 1} = ∅ := by
      rw [Set.eq_empty_iff_forall_not_mem]
      rintro x ⟨c, hc, _⟩
      simp at hc
    rw [this, sInf_empty, min_self, min_eq_left le_top]
  | cons c rest ih =>
    intro b
    have hsplit : {x : ℕ∞ | ∃ c' ∈ (c :: rest), ∃ k : ℕ, TilesTo P (wlOf r c') k ∧
        x = (k : ℕ∞) + 1} =
        {x : ℕ∞ | ∃ k : ℕ, TilesTo P (wlOf r c) k ∧ x = (k : ℕ∞) + 1} ∪
        {x : ℕ∞ | ∃ c' ∈ rest, ∃ k : ℕ, TilesTo P (wlOf r c') k ∧ x = (k : ℕ∞) + 1} := by
      ext x
      simp only [Set.mem_setOf_eq, Set.mem_union, List.mem_cons]
      constructor
      · rintro ⟨c', (rfl | hc'), hk⟩
        · exact Or.inl hk
        · exact Or.inr ⟨c', hc', hk⟩
      · rintro (hk | ⟨c', hc', hk⟩)
        · exact ⟨c, Or.inl rfl, hk⟩
        · exact ⟨c', Or.inr hc', hk⟩
    rw [hsplit, sInf_union]
    have hone_le_rest : (1 : ℕ∞) ≤ sInf {x : ℕ∞ | ∃ c' ∈ rest, ∃ k : ℕ,
        TilesTo P (wlOf r c') k ∧ x = (k : ℕ∞) + 1} := by
      apply le_sInf
      rintro x ⟨c', _, k, _, rfl⟩
      exact le_add_self
    rw [minRelExpr]
    split
    · rename_i hwl
      have hcontrib : {x : ℕ∞ | ∃ k : ℕ, TilesTo P (wlOf r c) k ∧ x = (k : ℕ∞) + 1} =
          {(1 : ℕ∞)} := by
        ext x
        simp only [Set.mem_setOf_eq, Set.mem_singleton_iff]
        constructor
        · rintro ⟨k, hk, rfl⟩
          rw [hwl, tilesTo_nil_iff P hP] at hk
          subst hk
          simp
        · rintro rfl
          exact ⟨0, by rw [hwl, tilesTo_nil_iff P hP], by simp⟩
      rw [hcontrib, csInf_singleton]
      rw [min_eq_left hone_le_rest]
    · rename_i hwl
      have hmaster := minTileF_eq P hP (wlOf r c).length (wlOf r c) (b - 1) (le_refl _) hwl
      rw [hmaster]
      have hbudget := enat_min_budget b
        (sInf {x : ℕ∞ | ∃ k : ℕ, TilesTo P (wlOf r c) k ∧ x = (k : ℕ∞)})
      have hcontrib : sInf {x : ℕ∞ | ∃ k : ℕ, TilesTo P (wlOf r c) k ∧ x = (k : ℕ∞) + 1} =
          1 + sInf {x : ℕ∞ | ∃ k : ℕ, TilesTo P (wlOf r c) k ∧ x = (k : ℕ∞)} :=
        enat_sInf_add_one _
      set t := sInf {x : ℕ∞ | ∃ k : ℕ, TilesTo P (wlOf r c) k ∧ x = (k : ℕ∞)} with ht
      set b' := min b (1 + min (b - 1) t) with hb'
      have hb'2 : b' = min b (1 + t) := hbudget
      have haux := ih b'
      set aux := minRelExpr P r rest b' with haux_def
      have haux_le : aux ≤ 1 + t := by
        rcases minRelExpr_le_or_one P r rest b' with h | h
        · exact le_trans h (le_trans (le_of_eq hb'2) (min_le_right _ _))
        · have h2 : aux = 1 := h
          rw [h2]
          exact le_self_add
      have hgoal_lhs : min b aux = min b (min (1 + t) aux) := by
        rw [min_eq_right haux_le]
      rw [hgoal_lhs, hcontrib]
      rw [show min b (min (1 + t) aux) = min (min b (1 + t)) aux by rw [min_assoc]]
      rw [← hb'2, haux, hb'2]
      rw [show min (min b (1 + t)) (sInf {x : ℕ∞ | ∃ c' ∈ rest, ∃ k : ℕ,
        TilesTo P (wlOf r c') k ∧ x = (k : ℕ∞) + 1}) = min b (min (1 + t)
        (sInf {x : ℕ∞ | ∃ c' ∈ rest, ∃ k : ℕ, TilesTo P (wlOf r c') k ∧
          x = (k : ℕ∞) + 1})) by rw [min_assoc]]

lemma piecesCore_ne_nil {rels : List Word} : ∀ p ∈ piecesCore rels, p ≠ [] := by
  intro p hp
  rw [mem_piecesCore_iff] at hp
  obtain ⟨i, hi, L, hL1, hLn, si, hsi, _, hx⟩ := hp
  have hlen : (subAt (relOf (irels rels) i) si L).length = L := by
    rw [length_subAt]; omega
  rcases hx with rfl | rfl
  · intro hc; rw [hc] at hlen; simp at hlen; omega
  · intro hc
    have := congrArg List.length hc
    rw [length_winv, hlen] at this
    simp at this
    omega

lemma mem_wrapCands {P : List Word} {r : Word} {c : Word × ℕ} :
    c ∈ wrapCands P r ↔ c.1 ∈ P ∧ c.1.length ≤ r.length ∧
      r.length - c.1.length + 1 ≤ c.2 ∧ c.2 ≤ r.length ∧ c.1 = subAt r c.2 c.1.length := by
  obtain ⟨p, si⟩ := c
  simp only [wrapCands, List.mem_flatMap]
  constructor
  · rintro ⟨p', hp', h⟩
    split at h
    · simp at h
    · rename_i hlen
      simp only [List.mem_map, List.mem_filter, List.mem_range] at h
      obtain ⟨si', ⟨⟨j, hj, rfl⟩, hdec⟩, heq⟩ := h
      obtain ⟨rfl, rfl⟩ : p' = p ∧ r.length - p'.length + 1 + j = si := by
        rw [Prod.mk.injEq] at heq
        exact ⟨heq.1, heq.2⟩
      refine ⟨hp', by omega, by omega, by omega, of_decide_eq_true hdec⟩
  · rintro ⟨hp, hlen, hsi1, hsi2, hsub⟩
    have hppos : 0 < p.length := by omega
    refine ⟨p, hp, ?_⟩
    rw [if_neg (by omega)]
    simp only [List.mem_map, List.mem_filter, List.mem_range]
    exact ⟨si, ⟨⟨si - (r.length - p.length + 1), by omega, by omega⟩,
      decide_eq_true hsub⟩, rfl⟩

lemma subAt_split (r p : Word) (si : ℕ) (hlen : p.length ≤ r.length) :
    subAt r si r.length = subAt r si p.length ++ wlOf r (p, si) := by
  rw [subAt, subAt, wlOf]
  have h1 : (si + r.length) - (si + p.length) = r.length - p.length := by omega
  rw [h1]
  have h2 : r.length = p.length + (r.length - p.length) := by omega
  conv_lhs => rw [h2, List.take_add]
  congr 1
  rw [List.drop_drop]

lemma foldl_congr_fun {α β : Type} (l : List α) (f g : β → α → β)
    (h : ∀ m a, a ∈ l → f m a = g m a) : ∀ b, l.foldl f b = l.foldl g b := by
  induction l with
  | nil => intro b; rfl
  | cons a rest ih =>
    intro b
    rw [List.foldl_cons, List.foldl_cons, h b a (by simp)]
    exact ih (fun m x hx => h m x (List.mem_cons_of_mem _ hx)) _

lemma foldl_min_sInf {α : Type} (S : α → Set ℕ∞) :
    ∀ (l : List α) (q : ℕ∞), l.foldl (fun m a => min m (sInf (S a))) q =
      min q (sInf {x : ℕ∞ | ∃ a ∈ l, x ∈ S a}) := by
  intro l
  induction l with
  | nil =>
    intro q
    have : {x : ℕ∞ | ∃ a ∈ ([] : List α), x ∈ S a} = ∅ := by
      rw [Set.eq_empty_iff_forall_not_mem]
      rintro x ⟨a, ha, _⟩
      simp at ha
    rw [List.foldl_nil, this, sInf_empty, min_eq_left le_top]
  | cons a rest ih =>
    intro q
    have hsplit : {x : ℕ∞ | ∃ a' ∈ (a :: rest), x ∈ S a'} =
        S a ∪ {x : ℕ∞ | ∃ a' ∈ rest, x ∈ S a'} := by
      ext x
      simp only [Set.mem_setOf_eq, Set.mem_union, List.mem_cons]
      constructor
      · rintro ⟨a', (rfl | ha'), hx⟩
        · exact Or.inl hx
        · exact Or.inr ⟨a', ha', hx⟩
      · rintro (hx | ⟨a', ha', hx⟩)
        · exact ⟨a, Or.inl rfl, hx⟩
        · exact ⟨a', Or.inr ha', hx⟩
    rw [List.foldl_cons, ih, hsplit, sInf_union, ← min_assoc]

lemma Ccore_eq (rels : List Word) (q : ℕ∞) :
    Ccore rels q = min q (sInf {x : ℕ∞ | ∃ k : ℕ, CDecomp rels k ∧ x = (k : ℕ∞)}) := by
  have hP := @piecesCore_ne_nil rels
  rw [Ccore]
  rw [foldl_congr_fun rels _ (fun m r => min m (sInf {x : ℕ∞ | ∃ c ∈ wrapCands (piecesCore rels) r,
      ∃ k : ℕ, TilesTo (piecesCore rels) (wlOf r c) k ∧ x = (k : ℕ∞) + 1}))
    (fun m r _ => by
      conv_lhs => rw [show min m (minRelExpr (piecesCore rels) r (wrapCands (piecesCore rels) r) m) =
        min m (sInf {x : ℕ∞ | ∃ c ∈ wrapCands (piecesCore rels) r, ∃ k : ℕ,
          TilesTo (piecesCore rels) (wlOf r c) k ∧ x = (k : ℕ∞) + 1}) from
        minRelExpr_min (piecesCore rels) hP r (wrapCands (piecesCore rels) r) m]) q]
  rw [foldl_min_sInf]
  congr 2
  ext x
  simp only [Set.mem_setOf_eq]
  constructor
  · rintro ⟨r, hr, c, hc, k, ⟨ps, hpsP, hpsf, hpslen⟩, rfl⟩
    rw [mem_wrapCands] at hc
    obtain ⟨hcP, hclen, hcsi1, hcsi2, hcsub⟩ := hc
    refine ⟨k + 1, ⟨r, hr, c.1, ps, c.2, hcP, hpsP, hclen, hcsi1, hcsi2, ?_, by omega⟩, ?_⟩
    · rw [subAt_split r c.1 c.2 hclen, hpsf, ← hcsub]
    · push_cast
      ring
  · rintro ⟨k, ⟨r, hr, p, ps, si, hpP, hpsP, hplen, hsi1, hsi2, hsplit2, hk⟩, rfl⟩
    have hsub : p = subAt r si p.length := by
      have h1 := congrArg (List.take p.length) hsplit2
      rw [List.take_left] at h1
      simp only [subAt] at h1
      rw [List.take_take, min_eq_left hplen] at h1
      exact h1.symm
    refine ⟨r, hr, (p, si), ?_, ps.length, ⟨ps, hpsP, ?_, rfl⟩, ?_⟩
    · rw [mem_wrapCands]
      exact ⟨hpP, hplen, hsi1, hsi2, hsub⟩
    · have h2 := hsplit2
      rw [subAt_split r p si hplen, ← hsub] at h2
      exact (List.append_cancel_left h2).symm
    · rw [hk]
      push_cast
      ring

/-- C3: for every list of cyclically reduced relators and every bound, `C`
returns the minimum of `quit_at` and the least number of pieces expressing
some cyclic rotation of some relator, where only the first piece of a
decomposition may wrap across the rotation boundary and the rest are ordinary
concatenation parts (infimum over the empty set being infinity). -/
theorem C_eq_min_of_quit_and_decomposition (rels : List Word) (hne : rels ≠ [])
    (hcyc : ∀ r ∈ rels, cycReduced r = true) (q : ℕ∞) :
    C rels q = some (min q (sInf {x : ℕ∞ | ∃ k : ℕ, CDecomp rels k ∧ x = (k : ℕ∞)})) := by
  rw [C, if_pos (List.all_eq_true.mpr hcyc), Ccore_eq]

/-- Witness for `C_eq_min_of_quit_and_decomposition` at a concrete input. -/
theorem C_eq_min_of_quit_and_decomposition_witness :
    C [[1, 2, -1, -2]] 7 = some (min 7 (sInf {x : ℕ∞ | ∃ k : ℕ,
      CDecomp [[1, 2, -1, -2]] k ∧ x = (k : ℕ∞)})) :=
  C_eq_min_of_quit_and_decomposition [[1, 2, -1, -2]] (by decide) (by decide) 7

/-- C9 counterexample: with the default infinite bound, `C` on the relator
list `[ab]` (which has no pieces at all) returns infinity, not a positive
integer. -/
theorem C_default_can_return_infinity :
    C [[1, 2]] ⊤ = some ⊤ ∧ ¬ ∃ n : ℕ, Ccore [[1, 2]] ⊤ = (n : ℕ∞) := by
  constructor
  · decide
  · rintro ⟨n, hn⟩
    have h1 : Ccore [[1, 2]] ⊤ = ⊤ := by decide
    rw [h1] at hn
    exact (ENat.coe_ne_top n) hn.symm

/-- C9 amended: for cyclically reduced relators and a positive bound
`quit_at`, the value `C` returns is a positive count capped at `quit_at`; it
is infinite only when `quit_at` is infinite and no relator rotation
decomposes into pieces. -/
theorem C_positive_and_capped (rels : List Word) (hne : rels ≠ [])
    (hcyc : ∀ r ∈ rels, cycReduced r = true) (q : ℕ∞) (hq : 1 ≤ q) (v : ℕ∞)
    (hv : C rels q = some v) : 1 ≤ v ∧ v ≤ q := by
  rw [C, if_pos (List.all_eq_true.mpr hcyc)] at hv
  cases hv
  rw [Ccore_eq]
  refine ⟨?_, min_le_left _ _⟩
  rw [le_min_iff]
  refine ⟨hq, ?_⟩
  apply le_sInf
  rintro x ⟨k, ⟨r, _, p, ps, si, _, _, _, _, _, _, hk⟩, rfl⟩
  subst hk
  exact_mod_cast Nat.one_le_iff_ne_zero.mpr (by omega)

/-- Witness for `C_positive_and_capped` at a concrete input. -/
theorem C_positive_and_capped_witness :
    1 ≤ Ccore [[1, 2, -1, -2]] 7 ∧ Ccore [[1, 2, -1, -2]] 7 ≤ 7 :=
  C_positive_and_capped [[1, 2, -1, -2]] (by decide) (by decide) 7 (by decide)
    (Ccore [[1, 2, -1, -2]] 7) rfl

lemma cycReduced_iff {w : Word} : cycReduced w = true ↔
    ∀ j < w.length, w.getD ((j + 1) % w.length) 0 ≠ -(w.getD j 0) := by
  simp [cycReduced, List.all_eq_true]

lemma mem_foldl_insert {α β : Type} [BEq β] [LawfulBEq β] (f : α → β) (l : List α) :
    ∀ (acc : List β) (x : β),
      x ∈ l.foldl (fun a y => a.insert (f y)) acc ↔ x ∈ acc ∨ ∃ y ∈ l, x = f y := by
  induction l with
  | nil => intro acc x; simp
  | cons a rest ih =>
    intro acc x
    rw [List.foldl_cons, ih]
    rw [List.mem_insert_iff]
    constructor
    · rintro ((rfl | h) | ⟨y, hy, rfl⟩)
      · exact Or.inr ⟨a, by simp, rfl⟩
      · exact Or.inl h
      · exact Or.inr ⟨y, by simp [hy], rfl⟩
    · rintro (h | ⟨y, hy, rfl⟩)
      · exact Or.inl (Or.inr h)
      · rcases List.mem_cons.mp hy with rfl | hy2
        · exact Or.inl (Or.inl rfl)
        · exact Or.inr ⟨y, hy2, rfl⟩

lemma nodup_insert_beq {β : Type} [BEq β] [LawfulBEq β] {l : List β} {a : β}
    (h : l.Nodup) : (l.insert a).Nodup := by
  by_cases hm : a ∈ l
  · rw [List.insert_of_mem hm]
    exact h
  · rw [List.insert_of_not_mem hm]
    exact List.nodup_cons.mpr ⟨hm, h⟩

lemma nodup_foldl_insert {α β : Type} [BEq β] [LawfulBEq β] (f : α → β) (l : List α) :
    ∀ (acc : List β), acc.Nodup → (l.foldl (fun a y => a.insert (f y)) acc).Nodup := by
  induction l with
  | nil => intro acc h; exact h
  | cons a rest ih =>
    intro acc h
    rw [List.foldl_cons]
    exact ih _ (nodup_insert_beq h)

lemma wgEdges_eq_foldl (rels : List Word) :
    wgEdges rels = (rels.flatMap (fun r => (List.range r.length).map (fun j => (r, j)))).foldl
      (fun a y => a.insert (eNorm (y.1.getD y.2 0) (-(y.1.getD ((y.2 + 1) % y.1.length) 0)))) [] := by
  rw [wgEdges]
  generalize ([] : List (ℤ × ℤ)) = acc
  induction rels generalizing acc with
  | nil => rfl
  | cons r rest ih =>
    rw [List.foldl_cons, List.flatMap_cons, List.foldl_append, ih]
    congr 1
    generalize acc = acc2
    induction List.range r.length generalizing acc2 with
    | nil => rfl
    | cons j js ihj =>
      rw [List.foldl_cons, List.map_cons, List.foldl_cons, ihj]

lemma mem_wgEdges {rels : List Word} {e : ℤ × ℤ} :
    e ∈ wgEdges rels ↔ ∃ r ∈ rels, ∃ j < r.length,
      e = eNorm (r.getD j 0) (-(r.getD ((j + 1) % r.length) 0)) := by
  rw [wgEdges_eq_foldl,
    mem_foldl_insert (fun y : Word × ℕ => eNorm (y.1.getD y.2 0)
      (-(y.1.getD ((y.2 + 1) % y.1.length) 0)))]
  simp only [List.not_mem_nil, false_or, List.mem_flatMap, List.mem_map, List.mem_range]
  constructor
  · rintro ⟨y, ⟨r, hr, j, hj, rfl⟩, rfl⟩
    exact ⟨r, hr, j, hj, rfl⟩
  · rintro ⟨r, hr, j, hj, rfl⟩
    exact ⟨(r, j), ⟨r, hr, j, hj, rfl⟩, rfl⟩

lemma nodup_wgEdges (rels : List Word) : (wgEdges rels).Nodup := by
  rw [wgEdges_eq_foldl]
  exact nodup_foldl_insert (fun y : Word × ℕ => eNorm (y.1.getD y.2 0)
    (-(y.1.getD ((y.2 + 1) % y.1.length) 0))) _ [] List.nodup_nil

lemma wgEdges_fst_lt_snd {rels : List Word} (hcyc : ∀ r ∈ rels, cycReduced r = true)
    {e : ℤ × ℤ} (he : e ∈ wgEdges rels) : e.1 < e.2 := by
  rw [mem_wgEdges] at he
  obtain ⟨r, hr, j, hj, rfl⟩ := he
  have hcyc2 := cycReduced_iff.mp (hcyc r hr) j hj
  have hne : r.getD j 0 ≠ -(r.getD ((j + 1) % r.length) 0) := by
    intro hc
    apply hcyc2
    rw [hc]
    ring
  simp only [eNorm]
  split
  · rename_i hle
    dsimp only
    rcases lt_or_eq_of_le hle with h | h
    · exact h
    · exact absurd h hne
  · rename_i hgt
    dsimp only
    omega

lemma mem_vertsOf {E : List (ℤ × ℤ)} {x : ℤ} :
    x ∈ vertsOf E ↔ ∃ e ∈ E, x = e.1 ∨ x = e.2 := by
  rw [vertsOf]
  have hgen : ∀ (l : List (ℤ × ℤ)) (acc : List ℤ),
      x ∈ l.foldl (fun acc e => (acc.insert e.1).insert e.2) acc ↔
        x ∈ acc ∨ ∃ e ∈ l, x = e.1 ∨ x = e.2 := by
    intro l
    induction l with
    | nil => intro acc; simp
    | cons e rest ih =>
      intro acc
      rw [List.foldl_cons, ih, List.mem_insert_iff, List.mem_insert_iff]
      constructor
      · rintro ((rfl | (rfl | h)) | ⟨e', he', hx⟩)
        · exact Or.inr ⟨e, by simp, Or.inr rfl⟩
        · exact Or.inr ⟨e, by simp, Or.inl rfl⟩
        · exact Or.inl h
        · exact Or.inr ⟨e', by simp [he'], hx⟩
      · rintro (h | ⟨e', he', hx⟩)
        · exact Or.inl (Or.inr (Or.inr h))
        · rcases List.mem_cons.mp he' with rfl | he2
          · rcases hx with rfl | rfl
            · exact Or.inl (Or.inr (Or.inl rfl))
            · exact Or.inl (Or.inl rfl)
          · exact Or.inr ⟨e', he2, hx⟩
  rw [hgen]
  simp

lemma mem_vertsOf_of_eNorm {E : List (ℤ × ℤ)} {a b : ℤ} (h : eNorm a b ∈ E) :
    b ∈ vertsOf E := by
  rw [mem_vertsOf]
  refine ⟨eNorm a b, h, ?_⟩
  simp only [eNorm]
  split
  · exact Or.inr rfl
  · exact Or.inl rfl

lemma mem_grow {E : List (ℤ × ℤ)} {vs : List ℤ} {S : Finset ℤ} {x : ℤ} :
    x ∈ grow E vs S ↔ x ∈ S ∨ (x ∈ vs ∧ ∃ a ∈ S, eNorm a x ∈ E) := by
  simp [grow, Finset.mem_union, Finset.mem_filter, List.mem_toFinset]

lemma reach_of_mem_iter (E : List (ℤ × ℤ)) (vs : List ℤ) (u : ℤ) :
    ∀ (k : ℕ) (x : ℤ), x ∈ (grow E vs)^[k] {u} → Reach E u x := by
  intro k
  induction k with
  | zero =>
    intro x hx
    simp at hx
    subst hx
    exact Relation.ReflTransGen.refl
  | succ k ih =>
    intro x hx
    rw [Function.iterate_succ_apply', mem_grow] at hx
    rcases hx with hx | ⟨_, a, ha, hadj⟩
    · exact ih x hx
    · exact Relation.ReflTransGen.tail (ih a ha) hadj

lemma iter_grow_subset_succ (E : List (ℤ × ℤ)) (vs : List ℤ) (u : ℤ) (k : ℕ) :
    (grow E vs)^[k] {u} ⊆ (grow E vs)^[k + 1] {u} := by
  rw [Function.iterate_succ_apply']
  intro x hx
  rw [mem_grow]
  exact Or.inl hx

lemma exists_iter_of_reach (E : List (ℤ × ℤ)) (u v : ℤ) (h : Reach E u v) :
    ∃ k, v ∈ (grow E (vertsOf E))^[k] {u} := by
  induction h with
  | refl => exact ⟨0, by simp⟩
  | tail h1 h2 ih =>
    obtain ⟨k, hk⟩ := ih
    refine ⟨k + 1, ?_⟩
    rw [Function.iterate_succ_apply', mem_grow]
    rename_i b c
    exact Or.inr ⟨mem_vertsOf_of_eNorm h2, b, hk, h2⟩

lemma iter_stable_forever {f : Finset ℤ → Finset ℤ} {S0 : Finset ℤ} {k : ℕ}
    (h : f^[k + 1] S0 = f^[k] S0) : ∀ j, f^[k + j] S0 = f^[k] S0 := by
  intro j
  induction j with
  | zero => rfl
  | succ j ih =>
    have h2 : f^[k + (j + 1)] S0 = f (f^[k + j] S0) := by
      rw [show k + (j + 1) = (k + j) + 1 by omega]
      exact Function.iterate_succ_apply' f (k + j) S0
    rw [h2, ih, ← Function.iterate_succ_apply' f k S0, h]

lemma exists_stable_le (f : Finset ℤ → Finset ℤ) (S0 : Finset ℤ)
    (hmono : ∀ S, S ⊆ f S) (U : Finset ℤ) (hU : ∀ k, f^[k] S0 ⊆ U) :
    ∃ k ≤ U.card, f^[k + 1] S0 = f^[k] S0 := by
  by_contra hcon
  push_neg at hcon
  have hgrow : ∀ k ≤ U.card + 1, k ≤ (f^[k] S0).card := by
    intro k
    induction k with
    | zero => intro _; omega
    | succ k ih =>
      intro hk
      have h1 := ih (by omega)
      have hss : f^[k] S0 ⊂ f^[k + 1] S0 := by
        rw [Function.iterate_succ_apply']
        refine ⟨hmono _, ?_⟩
        intro hsub
        apply hcon k (by omega)
        rw [Function.iterate_succ_apply']
        exact le_antisymm hsub (hmono _)
      have := Finset.card_lt_card hss
      omega
  have h1 := hgrow (U.card + 1) (le_refl _)
  have h2 := Finset.card_le_card (hU (U.card + 1))
  omega

lemma iter_le_mono {E : List (ℤ × ℤ)} {vs : List ℤ} {u : ℤ} {k k' : ℕ} (h : k ≤ k') :
    (grow E vs)^[k] {u} ⊆ (grow E vs)^[k'] {u} := by
  induction k' with
  | zero =>
    have : k = 0 := by omega
    subst this
    exact subset_refl _
  | succ k' ih =>
    rcases Nat.lt_or_ge k (k' + 1) with h1 | h1
    · exact subset_trans (ih (by omega)) (iter_grow_subset_succ E vs u k')
    · have hk : k = k' + 1 := by omega
      subst hk
      exact subset_refl _

lemma bfsAux_ne_top_iff (E : List (ℤ × ℤ)) (vs : List ℤ) (v : ℤ) :
    ∀ (fuel : ℕ) (S : Finset ℤ) (n : ℕ),
      bfsAux E vs v fuel S n ≠ ⊤ ↔ ∃ k ≤ fuel, v ∈ (grow E vs)^[k] S := by
  intro fuel
  induction fuel with
  | zero =>
    intro S n
    by_cases hv : v ∈ S
    · rw [show bfsAux E vs v 0 S n = (n : ℕ∞) by simp [bfsAux, hv]]
      simp only [ne_eq, ENat.coe_ne_top, not_false_iff, true_iff]
      exact ⟨0, le_refl _, by simpa using hv⟩
    · rw [show bfsAux E vs v 0 S n = ⊤ by simp [bfsAux, hv]]
      constructor
      · intro h
        exact absurd rfl h
      · rintro ⟨k, hk, hmem⟩
        have hk0 : k = 0 := by omega
        subst hk0
        exact absurd (show v ∈ S by simpa using hmem) hv
  | succ f ih =>
    intro S n
    by_cases hv : v ∈ S
    · rw [show bfsAux E vs v (f + 1) S n = (n : ℕ∞) by simp [bfsAux, hv]]
      simp only [ne_eq, ENat.coe_ne_top, not_false_iff, true_iff]
      exact ⟨0, by omega, by simpa using hv⟩
    · rw [show bfsAux E vs v (f + 1) S n = bfsAux E vs v f (grow E vs S) (n + 1) by
        simp [bfsAux, hv]]
      rw [ih (grow E vs S) (n + 1)]
      constructor
      · rintro ⟨k, hk, hmem⟩
        refine ⟨k + 1, by omega, ?_⟩
        rw [Function.iterate_succ_apply]
        exact hmem
      · rintro ⟨k, hk, hmem⟩
        cases k with
        | zero => exact absurd (by simpa using hmem) hv
        | succ k =>
          refine ⟨k, by omega, ?_⟩
          rw [← Function.iterate_succ_apply]
          exact hmem

lemma bfsDist_top_iff {E : List (ℤ × ℤ)} {u v : ℤ} :
    bfsDist E u v = ⊤ ↔ ¬ Reach E u v := by
  rw [bfsDist]
  constructor
  · intro htop hreach
    obtain ⟨k0, hk0⟩ := exists_iter_of_reach E u v hreach
    have hmono : ∀ S, S ⊆ grow E (vertsOf E) S := fun S x hx => mem_grow.mpr (Or.inl hx)
    have hU : ∀ k, (grow E (vertsOf E))^[k] {u} ⊆ insert u (vertsOf E).toFinset := by
      intro k
      induction k with
      | zero => simp
      | succ k ih =>
        rw [Function.iterate_succ_apply']
        intro x hx
        rcases mem_grow.mp hx with hx | ⟨hxv, _⟩
        · exact ih hx
        · exact Finset.mem_insert_of_mem (List.mem_toFinset.mpr hxv)
    obtain ⟨j, hj, hstable⟩ := exists_stable_le _ _ hmono _ hU
    have hcard : (insert u (vertsOf E).toFinset).card ≤ (vertsOf E).length + 1 := by
      refine le_trans (Finset.card_insert_le _ _) ?_
      have := List.toFinset_card_le (vertsOf E)
      omega
    have hvj : v ∈ (grow E (vertsOf E))^[j] {u} := by
      rcases Nat.le_total k0 j with hle | hle
      · exact iter_le_mono hle hk0
      · have := iter_stable_forever hstable (k0 - j)
        rw [show j + (k0 - j) = k0 by omega] at this
        rw [← this]
        exact hk0
    have := (bfsAux_ne_top_iff E (vertsOf E) v ((vertsOf E).length + 1) {u} 0).mpr
      ⟨j, by omega, hvj⟩
    exact this htop
  · intro hnreach
    by_contra htop
    obtain ⟨k, _, hmem⟩ := (bfsAux_ne_top_iff E (vertsOf E) v _ {u} 0).mp htop
    exact hnreach (reach_of_mem_iter E (vertsOf E) u k v hmem)

lemma bfsAux_ge (E : List (ℤ × ℤ)) (vs : List ℤ) (v : ℤ) :
    ∀ (fuel : ℕ) (S : Finset ℤ) (n : ℕ), (n : ℕ∞) ≤ bfsAux E vs v fuel S n := by
  intro fuel
  induction fuel with
  | zero =>
    intro S n
    by_cases hv : v ∈ S
    · rw [show bfsAux E vs v 0 S n = (n : ℕ∞) by simp [bfsAux, hv]]
    · rw [show bfsAux E vs v 0 S n = ⊤ by simp [bfsAux, hv]]
      exact le_top
  | succ f ih =>
    intro S n
    by_cases hv : v ∈ S
    · rw [show bfsAux E vs v (f + 1) S n = (n : ℕ∞) by simp [bfsAux, hv]]
    · rw [show bfsAux E vs v (f + 1) S n = bfsAux E vs v f (grow E vs S) (n + 1) by
        simp [bfsAux, hv]]
      refine le_trans ?_ (ih (grow E vs S) (n + 1))
      exact_mod_cast Nat.le_succ n

lemma two_le_bfsDist {E : List (ℤ × ℤ)} {u v : ℤ} (hne : u ≠ v)
    (hadj : eNorm u v ∉ E) : 2 ≤ bfsDist E u v := by
  rw [bfsDist]
  have hv0 : v ∉ ({u} : Finset ℤ) := by simp [Ne.symm hne]
  have hv1 : v ∉ grow E (vertsOf E) ({u} : Finset ℤ) := by
    rw [mem_grow]
    rintro (h | ⟨_, a, ha, hE⟩)
    · exact hv0 h
    · rw [Finset.mem_singleton] at ha
      subst ha
      exact hadj hE
  rw [show bfsAux E (vertsOf E) v ((vertsOf E).length + 1) {u} 0 =
      bfsAux E (vertsOf E) v (vertsOf E).length (grow E (vertsOf E) {u}) 1 by
    simp [bfsAux, hv0]]
  cases hfl : (vertsOf E).length with
  | zero =>
    rw [show bfsAux E (vertsOf E) v 0 (grow E (vertsOf E) {u}) 1 = ⊤ by simp [bfsAux, hv1]]
    exact le_top
  | succ f =>
    rw [show bfsAux E (vertsOf E) v (f + 1) (grow E (vertsOf E) {u}) 1 =
        bfsAux E (vertsOf E) v f (grow E (vertsOf E) (grow E (vertsOf E) {u})) 2 by
      simp [bfsAux, hv1]]
    exact bfsAux_ge E (vertsOf E) v f _ 2

lemma foldl_min_le_f {α : Type} (f : α → ℕ∞) :
    ∀ (l : List α) (b : ℕ∞) (e : α), e ∈ l →
      l.foldl (fun acc x => min acc (f x)) b ≤ f e := by
  intro l
  induction l with
  | nil => intro b e h; simp at h
  | cons a rest ih =>
    intro b e hmem
    rw [List.foldl_cons]
    rcases List.mem_cons.mp hmem with rfl | h2
    · exact le_trans (foldl_le_init _ (fun m x => min_le_left _ _) rest _) (min_le_right _ _)
    · exact ih _ e h2

lemma le_foldl_min {α : Type} (f : α → ℕ∞) :
    ∀ (l : List α) (b c : ℕ∞), c ≤ b → (∀ e ∈ l, c ≤ f e) →
      c ≤ l.foldl (fun acc x => min acc (f x)) b := by
  intro l
  induction l with
  | nil => intro b c hc _; simpa using hc
  | cons a rest ih =>
    intro b c hc hf
    rw [List.foldl_cons]
    exact ih _ c (le_min hc (hf a (by simp))) (fun e he => hf e (by simp [he]))

lemma foldl_min_eq_top {α : Type} (f : α → ℕ∞) :
    ∀ (l : List α) (b : ℕ∞),
      l.foldl (fun acc x => min acc (f x)) b = ⊤ ↔ b = ⊤ ∧ ∀ e ∈ l, f e = ⊤ := by
  intro l
  induction l with
  | nil => intro b; simp
  | cons a rest ih =>
    intro b
    rw [List.foldl_cons, ih]
    constructor
    · rintro ⟨hmin, hrest⟩
      rw [min_eq_top] at hmin
      refine ⟨hmin.1, ?_⟩
      intro e he
      rcases List.mem_cons.mp he with rfl | h2
      · exact hmin.2
      · exact hrest e h2
    · rintro ⟨hb, hall⟩
      refine ⟨?_, fun e he => hall e (by simp [he])⟩
      rw [min_eq_top]
      exact ⟨hb, hall a (by simp)⟩

lemma eNorm_pair {e : ℤ × ℤ} (h : e.1 ≤ e.2) : eNorm e.1 e.2 = e := by
  rw [eNorm, if_pos h]

lemma not_adj_erase {E : List (ℤ × ℤ)} (hnd : E.Nodup) {e : ℤ × ℤ} (hlt : e.1 < e.2) :
    eNorm e.1 e.2 ∉ E.erase e := by
  rw [eNorm_pair (le_of_lt hlt)]
  intro hmem
  exact ((List.Nodup.mem_erase_iff hnd).mp hmem).1 rfl

/-- C5: for a nonempty list of cyclically reduced relators, `T` is at least 3,
and it is infinite exactly when the reduced Whitehead graph has no cycle (no
edge of it lies on a cycle); in particular an edge whose removal disconnects
its endpoints contributes no finite candidate, and with no edges at all the
result is infinity. -/
theorem T_ge_three_or_infinite (rels : List Word) (hne : rels ≠ [])
    (hcyc : ∀ r ∈ rels, cycReduced r = true) (v : ℕ∞) (hv : T rels = some v) :
    3 ≤ v ∧ (v = ⊤ ↔ ¬ HasCycle (wgEdges rels)) := by
  rw [T, if_pos (List.all_eq_true.mpr hcyc)] at hv
  cases hv
  constructor
  · rw [Tcore]
    apply le_foldl_min _ _ _ _ le_top
    intro e he
    have hlt := wgEdges_fst_lt_snd hcyc he
    have h2 := two_le_bfsDist (ne_of_lt hlt) (not_adj_erase (nodup_wgEdges rels) hlt)
    calc (3 : ℕ∞) = 1 + 2 := by norm_num
      _ ≤ 1 + bfsDist ((wgEdges rels).erase e) e.1 e.2 := add_le_add_left h2 1
  · rw [Tcore, foldl_min_eq_top]
    constructor
    · rintro ⟨_, hall⟩ ⟨e, he, hreach⟩
      have h1 := hall e he
      rw [WithTop.add_eq_top] at h1
      rcases h1 with h1 | h1
      · simp at h1
      · exact (bfsDist_top_iff.mp h1) hreach
    · intro hnc
      refine ⟨rfl, fun e he => ?_⟩
      rw [WithTop.add_eq_top]
      right
      rw [bfsDist_top_iff]
      intro hreach
      exact hnc ⟨e, he, hreach⟩

/-- Witness for `T_ge_three_or_infinite` at a concrete input. -/
theorem T_ge_three_or_infinite_witness :
    3 ≤ Tcore [[1, 2, -1, -2]] ∧
      (Tcore [[1, 2, -1, -2]] = ⊤ ↔ ¬ HasCycle (wgEdges [[1, 2, -1, -2]])) :=
  T_ge_three_or_infinite [[1, 2, -1, -2]] (by decide) (by decide)
    (Tcore [[1, 2, -1, -2]]) rfl

lemma foldl_qmax_init_le {α : Type} (P : α → Prop) [DecidablePred P] (f : α → ℚ) :
    ∀ (l : List α) (b : ℚ), b ≤ l.foldl (fun acc t => if P t then max acc (f t) else acc) b := by
  intro l
  induction l with
  | nil => intro b; simp
  | cons a rest ih =>
    intro b
    rw [List.foldl_cons]
    refine le_trans ?_ (ih _)
    split
    · exact le_max_left _ _
    · exact le_refl _

lemma foldl_qmax_le {α : Type} (P : α → Prop) [DecidablePred P] (f : α → ℚ) :
    ∀ (l : List α) (b c : ℚ), b ≤ c → (∀ t ∈ l, P t → f t ≤ c) →
      l.foldl (fun acc t => if P t then max acc (f t) else acc) b ≤ c := by
  intro l
  induction l with
  | nil => intro b c hb _; simpa using hb
  | cons a rest ih =>
    intro b c hb hf
    rw [List.foldl_cons]
    refine ih _ c ?_ (fun t ht hP => hf t (by simp [ht]) hP)
    split
    · rename_i hP
      exact max_le hb (hf a (by simp) hP)
    · exact hb

lemma le_foldl_qmax_of_mem {α : Type} (P : α → Prop) [DecidablePred P] (f : α → ℚ) :
    ∀ (l : List α) (b : ℚ) (t : α), t ∈ l → P t →
      f t ≤ l.foldl (fun acc x => if P x then max acc (f x) else acc) b := by
  intro l
  induction l with
  | nil => intro b t h; simp at h
  | cons a rest ih =>
    intro b t hmem hP
    rw [List.foldl_cons]
    rcases List.mem_cons.mp hmem with rfl | h2
    · refine le_trans ?_ (foldl_qmax_init_le P f rest _)
      rw [if_pos hP]
      exact le_max_right _ _
    · exact ih _ t h2 hP

lemma trueMax_nonneg (rels : List Word) : 0 ≤ trueMax rels :=
  foldl_qmax_init_le _ _ _ 0

lemma ratio_le_trueMax {rels : List Word} {i L si : ℕ} (hi : i < rels.length)
    (hL1 : 1 ≤ L) (hLn : L ≤ (relOf (irels rels) i).length)
    (hsi : si < (relOf (irels rels) i).length)
    (hT : TwoOcc (irels rels) (subAt (relOf (irels rels) i) si L)) :
    (L : ℚ) / ((relOf (irels rels) i).length : ℚ) ≤ trueMax rels := by
  have hmem : (i, L, si) ∈ pieceAdds rels := by
    rw [mem_pieceAdds]
    exact ⟨i, hi, L - 1, by omega, si, hsi, by rw [Nat.sub_add_cancel hL1]⟩
  exact le_foldl_qmax_of_mem _ _ (pieceAdds rels) 0 (i, L, si) hmem hT

lemma trueMax_le {rels : List Word} {c : ℚ} (h0 : 0 ≤ c)
    (h : ∀ i L si, i < rels.length → 1 ≤ L → L ≤ (relOf (irels rels) i).length →
      si < (relOf (irels rels) i).length →
      TwoOcc (irels rels) (subAt (relOf (irels rels) i) si L) →
      (L : ℚ) / ((relOf (irels rels) i).length : ℚ) ≤ c) :
    trueMax rels ≤ c := by
  refine foldl_qmax_le _ _ (pieceAdds rels) 0 c h0 ?_
  intro t hmem hT
  rw [mem_pieceAdds] at hmem
  obtain ⟨i, hi, L0, hL0, si, hsi, rfl⟩ := hmem
  exact h i (L0 + 1) si hi (by omega) (by omega) hsi hT

lemma getD_le_sum (l : List ℕ) (k : ℕ) : l.getD k 0 ≤ l.sum := by
  induction l generalizing k with
  | nil => simp
  | cons a t ih =>
    cases k with
    | zero => simp
    | succ k => simpa using le_trans (ih k) (Nat.le_add_left _ _)

lemma sum_two_indices {l : List ℕ} {m m' : ℕ} (h : m < m') (h' : m' < l.length) :
    l.getD m 0 + l.getD m' 0 ≤ l.sum := by
  induction l generalizing m m' with
  | nil => simp at h'
  | cons a t ih =>
    cases m with
    | zero =>
      cases m' with
      | zero => omega
      | succ m' =>
        simp only [List.getD_cons_zero, List.getD_cons_succ, List.sum_cons]
        exact Nat.add_le_add_left (getD_le_sum t m') a
    | succ m =>
      cases m' with
      | zero => omega
      | succ m' =>
        simp only [List.getD_cons_succ, List.sum_cons]
        exact le_trans (ih (by omega) (by simpa using h')) (Nat.le_add_left _ _)

lemma exists_ne_mem_of_nodup_two {α : Type} [DecidableEq α] {l : List α} {a : α}
    (hnd : l.Nodup) (ha : a ∈ l) (hlen : 2 ≤ l.length) : ∃ b ∈ l, b ≠ a := by
  have hcard : 1 < l.toFinset.card := by
    rw [List.toFinset_card_of_nodup hnd]; exact hlen
  obtain ⟨b, hb, hba⟩ := Finset.exists_ne_of_one_lt_card hcard a
  exact ⟨b, List.mem_toFinset.mp hb, hba⟩

lemma two_le_length_of_two_mem {α : Type} [DecidableEq α] {l : List α} {a b : α}
    (ha : a ∈ l) (hb : b ∈ l) (hab : a ≠ b) : 2 ≤ l.length := by
  have hsub : ({a, b} : Finset α) ⊆ l.toFinset := by
    intro x hx
    rw [List.mem_toFinset]
    rcases Finset.mem_insert.mp hx with rfl | hx
    · exact ha
    · rw [Finset.mem_singleton] at hx; exact hx ▸ hb
  calc 2 = ({a, b} : Finset α).card := (Finset.card_pair hab).symm
    _ ≤ l.toFinset.card := Finset.card_le_card hsub
    _ ≤ l.length := List.toFinset_card_le l

lemma one_le_cnt {w p : Word} {s : ℕ} (h : occursAt w s p) :
    1 ≤ ((List.range w.length).filter (fun s => decide (occursAt w s p))).length := by
  have hs : s ∈ (List.range w.length).filter (fun s => decide (occursAt w s p)) :=
    List.mem_filter.mpr ⟨List.mem_range.mpr h.1, by simpa using h⟩
  exact List.length_pos_of_mem hs

lemma two_le_cnt {w p : Word} {s s' : ℕ} (h : occursAt w s p) (h' : occursAt w s' p)
    (hne : s ≠ s') :
    2 ≤ ((List.range w.length).filter (fun s => decide (occursAt w s p))).length := by
  have hs : s ∈ (List.range w.length).filter (fun s => decide (occursAt w s p)) :=
    List.mem_filter.mpr ⟨List.mem_range.mpr h.1, by simpa using h⟩
  have hs' : s' ∈ (List.range w.length).filter (fun s => decide (occursAt w s p)) :=
    List.mem_filter.mpr ⟨List.mem_range.mpr h'.1, by simpa using h'⟩
  exact two_le_length_of_two_mem hs hs' hne

lemma map_getD_lt {α β : Type} (f : α → β) (l : List α) (m : ℕ) (hm : m < l.length)
    (d : β) (d' : α) : (l.map f).getD m d = f (l.getD m d') := by
  rw [List.getD_eq_getElem?_getD, List.getElem?_map, List.getD_eq_getElem?_getD,
    List.getElem?_eq_getElem hm]
  simp

lemma twoOcc_same_word {ws : List Word} {p : Word} {m s s' : ℕ} (hm : m < ws.length)
    (h1 : occursAt (ws.getD m []) s p) (h2 : occursAt (ws.getD m []) s' p)
    (hne : s ≠ s') : TwoOcc ws p := by
  unfold TwoOcc occCount
  calc 2 ≤ ((List.range (ws.getD m []).length).filter
        (fun s => decide (occursAt (ws.getD m []) s p))).length := two_le_cnt h1 h2 hne
    _ = (ws.map (fun w => ((List.range w.length).filter
        (fun s => decide (occursAt w s p))).length)).getD m 0 :=
      (map_getD_lt (fun w => ((List.range w.length).filter
        (fun s => decide (occursAt w s p))).length) ws m hm 0 []).symm
    _ ≤ _ := getD_le_sum _ m

lemma twoOcc_lt_words {ws : List Word} {p : Word} {m m' s s' : ℕ} (hm' : m' < ws.length)
    (hlt : m < m') (h1 : occursAt (ws.getD m []) s p) (h2 : occursAt (ws.getD m' []) s' p) :
    TwoOcc ws p := by
  unfold TwoOcc occCount
  have hm : m < ws.length := lt_trans hlt hm'
  have e1 := map_getD_lt (fun w => ((List.range w.length).filter
    (fun s => decide (occursAt w s p))).length) ws m hm 0 []
  have e2 := map_getD_lt (fun w => ((List.range w.length).filter
    (fun s => decide (occursAt w s p))).length) ws m' hm' 0 []
  calc 2 = 1 + 1 := rfl
    _ ≤ (ws.map (fun w => ((List.range w.length).filter
          (fun s => decide (occursAt w s p))).length)).getD m 0 +
        (ws.map (fun w => ((List.range w.length).filter
          (fun s => decide (occursAt w s p))).length)).getD m' 0 := by
      rw [e1, e2]; exact Nat.add_le_add (one_le_cnt h1) (one_le_cnt h2)
    _ ≤ _ := sum_two_indices hlt (by rw [List.length_map]; exact hm')

lemma twoOcc_two_words {ws : List Word} {p : Word} {m m' s s' : ℕ} (hm : m < ws.length)
    (hm' : m' < ws.length) (hne : m ≠ m') (h1 : occursAt (ws.getD m []) s p)
    (h2 : occursAt (ws.getD m' []) s' p) : TwoOcc ws p := by
  rcases Nat.lt_or_ge m m' with hlt | hge
  · exact twoOcc_lt_words hm' hlt h1 h2
  · exact twoOcc_lt_words hm (by omega) h2 h1

lemma sum_le_getD_of_others_zero {l : List ℕ} {m : ℕ}
    (h : ∀ m' < l.length, m' ≠ m → l.getD m' 0 = 0) : l.sum ≤ l.getD m 0 := by
  induction l generalizing m with
  | nil => simp
  | cons a t ih =>
    cases m with
    | zero =>
      have ht : ∀ x ∈ t, x = 0 := by
        intro x hx
        obtain ⟨k, hk, hkx⟩ := List.getElem_of_mem hx
        have := h (k + 1) (by simpa using hk) (by omega)
        rw [List.getD_cons_succ, List.getD_eq_getElem t 0 hk] at this
        omega
      rw [List.sum_cons, List.sum_eq_zero ht, List.getD_cons_zero]
      omega
    | succ m =>
      have ha : a = 0 := by
        have := h 0 (by simp) (by omega)
        simpa using this
      have ht : ∀ m' < t.length, m' ≠ m → t.getD m' 0 = 0 := by
        intro m' hm' hne
        have := h (m' + 1) (by simpa using hm') (by omega)
        simpa using this
      rw [List.sum_cons, ha, List.getD_cons_succ]
      simpa using ih ht

lemma exists_other_pos {l : List ℕ} {m : ℕ} (hsum : 2 ≤ l.sum) (hm1 : l.getD m 0 ≤ 1) :
    ∃ m', m' < l.length ∧ m' ≠ m ∧ 1 ≤ l.getD m' 0 := by
  by_contra hcon
  push_neg at hcon
  have h0 : ∀ m' < l.length, m' ≠ m → l.getD m' 0 = 0 := by
    intro m' h1 h2
    have := hcon m' h1 h2
    omega
  have := sum_le_getD_of_others_zero h0
  omega

lemma twoOcc_extract {ws : List Word} {p : Word} {m s : ℕ} (hm : m < ws.length)
    (hocc : occursAt (ws.getD m []) s p) (hT : TwoOcc ws p) :
    ∃ m' s', m' < ws.length ∧ occursAt (ws.getD m' []) s' p ∧ (m' ≠ m ∨ s' ≠ s) := by
  unfold TwoOcc occCount at hT
  by_cases h2 : 2 ≤ ((List.range (ws.getD m []).length).filter
      (fun s => decide (occursAt (ws.getD m []) s p))).length
  · have hnd : ((List.range (ws.getD m []).length).filter
        (fun s => decide (occursAt (ws.getD m []) s p))).Nodup :=
      (List.nodup_range _).filter _
    have hs : s ∈ (List.range (ws.getD m []).length).filter
        (fun s => decide (occursAt (ws.getD m []) s p)) :=
      List.mem_filter.mpr ⟨List.mem_range.mpr hocc.1, by simpa using hocc⟩
    obtain ⟨s', hs', hne⟩ := exists_ne_mem_of_nodup_two hnd hs h2
    have hmem := List.mem_filter.mp hs'
    exact ⟨m, s', hm, of_decide_eq_true hmem.2, Or.inr hne⟩
  · push_neg at h2
    have hle : (ws.map (fun w => ((List.range w.length).filter
        (fun s => decide (occursAt w s p))).length)).getD m 0 ≤ 1 := by
      rw [map_getD_lt (fun w => ((List.range w.length).filter
        (fun s => decide (occursAt w s p))).length) ws m hm 0 []]
      omega
    obtain ⟨m', hm', hne, h1⟩ := exists_other_pos hT hle
    rw [List.length_map] at hm'
    rw [map_getD_lt (fun w => ((List.range w.length).filter
      (fun s => decide (occursAt w s p))).length) ws m' hm' 0 []] at h1
    have hne2 : (List.range (ws.getD m' []).length).filter
        (fun s => decide (occursAt (ws.getD m' []) s p)) ≠ [] := by
      intro hnil
      rw [hnil] at h1
      simp at h1
    obtain ⟨s', hs'⟩ := List.exists_mem_of_ne_nil _ hne2
    have hmem := List.mem_filter.mp hs'
    exact ⟨m', s', hm', of_decide_eq_true hmem.2, Or.inl hne⟩

lemma winv_getD {w : Word} {k : ℕ} (hk : k < w.length) :
    (winv w).getD k 0 = -(w.getD (w.length - 1 - k) 0) := by
  unfold winv
  rw [List.getD_eq_getElem _ 0 (by simpa using hk)]
  rw [List.getElem_map, List.getElem_reverse]
  rw [List.getD_eq_getElem _ 0 (by omega)]

lemma occursAt_winv {w p : Word} {s : ℕ} (h : occursAt w s p) :
    occursAt (winv w) ((w.length - (s + p.length) % w.length) % w.length) (winv p) := by
  obtain ⟨hs, hocc⟩ := h
  have hn : 0 < w.length := by omega
  refine ⟨by rw [length_winv]; exact Nat.mod_lt _ hn, ?_⟩
  intro k hk
  rw [length_winv] at hk
  rw [winv_getD hk, length_winv]
  have hu : ((w.length - (s + p.length) % w.length) % w.length + k) % w.length < w.length :=
    Nat.mod_lt _ hn
  rw [winv_getD (by omega)]
  have hA : (s + (p.length - 1 - k)) % w.length < w.length := Nat.mod_lt _ hn
  suffices hidx : (s + (p.length - 1 - k)) % w.length =
      w.length - 1 -
        (((w.length - (s + p.length) % w.length) % w.length + k) % w.length) by
    rw [← hidx, ← hocc (p.length - 1 - k) (by omega)]
  have e1 : (s + (p.length - 1 - k)) % w.length ≡ s + (p.length - 1 - k) [MOD w.length] :=
    Nat.mod_modEq _ _
  have e3 : (w.length - (s + p.length) % w.length) % w.length ≡
      w.length - (s + p.length) % w.length [MOD w.length] := Nat.mod_modEq _ _
  have e2 : ((w.length - (s + p.length) % w.length) % w.length + k) % w.length ≡
      (w.length - (s + p.length) % w.length) + k [MOD w.length] :=
    (Nat.mod_modEq _ _).trans (e3.add_right k)
  have esum := (e1.add e2).add_right 1
  have hvle : (s + p.length) % w.length ≤ s + p.length := Nat.mod_le _ _
  have hvlt : (s + p.length) % w.length < w.length := Nat.mod_lt _ hn
  have harith : s + (p.length - 1 - k) + ((w.length - (s + p.length) % w.length) + k) + 1 =
      (s + p.length - (s + p.length) % w.length) + w.length := by omega
  have hzero : ((s + (p.length - 1 - k)) % w.length +
      ((w.length - (s + p.length) % w.length) % w.length + k) % w.length + 1) %
        w.length = 0 := by
    unfold Nat.ModEq at esum
    rw [esum, harith]
    have hdv : w.length ∣ s + p.length - (s + p.length) % w.length :=
      Nat.dvd_sub_mod (s + p.length)
    obtain ⟨c, hc⟩ := hdv
    rw [hc]
    simp [Nat.add_mod, Nat.mul_mod_right]
  obtain ⟨c, hc⟩ := Nat.dvd_of_mod_eq_zero hzero
  match c with
  | 0 => omega
  | 1 => omega
  | c + 2 =>
    have h2 : w.length * 2 ≤ w.length * (c + 2) := Nat.mul_le_mul_left _ (by omega)
    omega

lemma occursAt_take {w p : Word} {s M : ℕ} (h : occursAt w s p) :
    occursAt w s (p.take M) := by
  refine ⟨h.1, ?_⟩
  intro k hk
  rw [List.length_take] at hk
  rw [List.getD_eq_getElem _ 0 (by rw [List.length_take]; omega), List.getElem_take,
    ← List.getD_eq_getElem _ 0 (by omega)]
  exact h.2 k (by omega)

lemma laterHit_of_occursAt {ws : List Word} {i k : ℕ} {p : Word} {s : ℕ}
    (hk1 : 2 * i + 1 ≤ k) (hk2 : k < ws.length)
    (hocc : occursAt (ws.getD k []) s p) (hlen : p.length ≤ (ws.getD k []).length) :
    laterHit ws i p = true := by
  rw [laterHit_iff]
  refine ⟨k, hk1, hk2, ?_⟩
  rw [isSub_iff]
  refine ⟨s, ?_, ?_⟩
  · rw [List.length_append]
    have := hocc.1
    omega
  · exact occursAt_subAt hocc (by have := hocc.1; omega)

lemma laterHit_occursAt {ws : List Word} {i : ℕ} {p : Word} (hp : p ≠ [])
    (h : laterHit ws i p = true) :
    ∃ k s, 2 * i + 1 ≤ k ∧ k < ws.length ∧ occursAt (ws.getD k []) s p := by
  rw [laterHit_iff] at h
  obtain ⟨k, hk1, hk2, hsub⟩ := h
  obtain ⟨s, hs, hocc, _⟩ := (isSub_dbl_iff hp).mp hsub
  exact ⟨k, s, hk1, hk2, hocc⟩

lemma length_subAt_eq {w : Word} {s L : ℕ} (hs : s < w.length) (hL : L ≤ w.length) :
    (subAt w s L).length = L := by
  rw [length_subAt]
  omega

lemma hitAny_iff {ws : List Word} {i L : ℕ} :
    hitAny ws i L = true ↔ ∃ si < (relOf ws i).length, hit ws i si L = true := by
  unfold hitAny
  rw [List.any_eq_true]
  constructor
  · rintro ⟨si, hsi, hhit⟩
    exact ⟨si, List.mem_range.mp hsi, hhit⟩
  · rintro ⟨si, hsi, hhit⟩
    exact ⟨si, List.mem_range.mpr hsi, hhit⟩

lemma hit_twoOcc {srels : List Word} {i si L : ℕ} (hi : i < srels.length)
    (hsi : si < (relOf (irels srels) i).length) (hL1 : 1 ≤ L)
    (hLn : L ≤ (relOf (irels srels) i).length)
    (h : hit (irels srels) i si L = true) :
    TwoOcc (irels srels) (subAt (relOf (irels srels) i) si L) := by
  have hm : 2 * i < (irels srels).length := by
    rw [length_irels]; omega
  have hplen : (subAt (relOf (irels srels) i) si L).length = L :=
    length_subAt_eq hsi hLn
  have hpne : subAt (relOf (irels srels) i) si L ≠ [] := by
    intro hnil
    rw [hnil] at hplen
    simp at hplen
    omega
  have occ0 : occursAt (relOf (irels srels) i) si
      (subAt (relOf (irels srels) i) si L) :=
    subAt_occursAt _ si L hsi (by omega)
  unfold hit at h
  rw [Bool.or_eq_true] at h
  rcases h with hw | hl
  · obtain ⟨s', hs'n, hs'ne, hocc'⟩ := windowHit_occurs hsi hL1 hLn hw
    exact twoOcc_same_word hm occ0 hocc' (fun hss => hs'ne (hss ▸ rfl))
  · obtain ⟨k, s', hk1, hk2, hocc'⟩ := laterHit_occursAt hpne hl
    exact twoOcc_two_words hm hk2 (by omega) occ0 hocc'

lemma ratio_le_ratio {L n L' m : ℕ} (hm : 0 < m) (hn : 0 < n)
    (h : L * m ≤ L' * n) : (L : ℚ) / (n : ℚ) ≤ (L' : ℚ) / (m : ℚ) := by
  rw [div_le_div_iff (by exact_mod_cast hn) (by exact_mod_cast hm)]
  exact_mod_cast h

lemma sorted_getD_le {srels : List Word}
    (hsort : List.Pairwise (fun a b : Word => a.length ≤ b.length) srels)
    {j i : ℕ} (hji : j < i) (hi : i < srels.length) :
    (srels.getD j []).length ≤ (srels.getD i []).length := by
  rw [List.getD_eq_getElem _ _ (by omega), List.getD_eq_getElem _ _ hi]
  exact List.pairwise_iff_getElem.mp hsort j i (by omega) hi hji

lemma getD_length_pos {srels : List Word} (hne : ∀ r ∈ srels, r ≠ []) {j : ℕ}
    (hj : j < srels.length) : 0 < (srels.getD j []).length := by
  have hmem : srels.getD j [] ∈ srels := by
    rw [List.getD_eq_getElem _ _ hj]
    exact List.getElem_mem _
  exact List.length_pos.mpr (hne _ hmem)

lemma irels_getD_length (srels : List Word) (m : ℕ) (hm : m < (irels srels).length) :
    ((irels srels).getD m []).length = (srels.getD (m / 2) []).length := by
  rw [length_irels] at hm
  rcases Nat.even_or_odd m with ⟨j, hj⟩ | ⟨j, hj⟩
  · have h2 : m = 2 * j := by omega
    have hd : 2 * j / 2 = j := by omega
    rw [h2, hd, irels_getD_even srels j (by omega)]
  · have h2 : m = 2 * j + 1 := by omega
    have hd : (2 * j + 1) / 2 = j := by omega
    rw [h2, hd, irels_getD_odd srels j (by omega), length_winv]

lemma detect_at {srels : List Word} {j t : ℕ} {u : Word}
    (hj : j < srels.length) (hocc : occursAt (srels.getD j []) t u)
    (hul : u.length ≤ (srels.getD j []).length)
    (hlater : laterHit (irels srels) j u = true) :
    hitAny (irels srels) j u.length = true := by
  have ht : t < (srels.getD j []).length := hocc.1
  have hsub : subAt (srels.getD j []) t u.length = u :=
    occursAt_subAt hocc (by omega)
  rw [hitAny_iff]
  refine ⟨t, ?_, ?_⟩
  · rw [relOf_irels srels j hj]
    exact ht
  · unfold hit
    rw [Bool.or_eq_true]
    right
    rw [relOf_irels srels j hj, hsub]
    exact hlater

lemma twoOcc_detected {srels : List Word}
    (hsort : List.Pairwise (fun a b : Word => a.length ≤ b.length) srels)
    (hne : ∀ r ∈ srels, r ≠ [])
    {i si L : ℕ} (hi : i < srels.length) (hsi : si < (relOf (irels srels) i).length)
    (hL1 : 1 ≤ L) (hLn : L ≤ (relOf (irels srels) i).length)
    (hT : TwoOcc (irels srels) (subAt (relOf (irels srels) i) si L)) :
    ∃ j L', j < srels.length ∧ 1 ≤ L' ∧ L' ≤ (relOf (irels srels) j).length ∧
      hitAny (irels srels) j L' = true ∧
      (L : ℚ) / ((relOf (irels srels) i).length : ℚ) ≤
        (L' : ℚ) / ((relOf (irels srels) j).length : ℚ) := by
  have hri : relOf (irels srels) i = srels.getD i [] := relOf_irels srels i hi
  have hni : 0 < (srels.getD i []).length := getD_length_pos hne hi
  have hplen : (subAt (relOf (irels srels) i) si L).length = L := length_subAt_eq hsi hLn
  have hpne : subAt (relOf (irels srels) i) si L ≠ [] := by
    intro h0
    rw [h0] at hplen
    simp at hplen
    omega
  have hm : 2 * i < (irels srels).length := by rw [length_irels]; omega
  have occ0 : occursAt (relOf (irels srels) i) si (subAt (relOf (irels srels) i) si L) :=
    subAt_occursAt _ si L hsi (by omega)
  obtain ⟨m', s', hm', hocc', hdiff⟩ := twoOcc_extract hm occ0 hT
  have hm'2 : m' < 2 * srels.length := by rw [length_irels] at hm'; exact hm'
  rcases Nat.lt_or_ge (2 * i) m' with hgt | hle2
  · -- the second occurrence lies in the inverse of relator i or a later entry
    have hj2 : i ≤ m' / 2 := by omega
    have hlen2 : (srels.getD i []).length ≤ ((irels srels).getD m' []).length := by
      rw [irels_getD_length srels m' hm']
      rcases Nat.eq_or_lt_of_le hj2 with heq | hlt2
      · rw [← heq]
      · exact sorted_getD_le hsort hlt2 (by omega)
    have hlater : laterHit (irels srels) i (subAt (relOf (irels srels) i) si L) = true :=
      laterHit_of_occursAt (by omega) hm' hocc'
        (by rw [hplen]; rw [hri] at hLn; omega)
    refine ⟨i, L, hi, hL1, hLn, ?_, le_refl _⟩
    rw [hitAny_iff]
    refine ⟨si, hsi, ?_⟩
    unfold hit
    rw [Bool.or_eq_true]
    right
    exact hlater
  · rcases Nat.lt_or_ge m' (2 * i) with hlt | hge2
    · -- the second occurrence lies in an earlier (hence shorter) relator or inverse
      have hj : m' / 2 < i := by omega
      have hjlen : m' / 2 < srels.length := by omega
      have hnj : 0 < (srels.getD (m' / 2) []).length := getD_length_pos hne hjlen
      have hnted : (srels.getD (m' / 2) []).length ≤ (srels.getD i []).length :=
        sorted_getD_le hsort hj hi
      set q := (subAt (relOf (irels srels) i) si L).take ((srels.getD (m' / 2) []).length)
        with hqdef
      have hqlen : q.length = min ((srels.getD (m' / 2) []).length) L := by
        rw [hqdef, List.length_take, hplen]
      have hqle : q.length ≤ (srels.getD (m' / 2) []).length := by rw [hqlen]; omega
      have hq1 : 1 ≤ q.length := by rw [hqlen]; omega
      have hocciq : occursAt ((irels srels).getD (2 * i) []) si q := occursAt_take occ0
      have hoccq : occursAt ((irels srels).getD m' []) s' q := occursAt_take hocc'
      rcases Nat.even_or_odd m' with ⟨jj, hjj⟩ | ⟨jj, hjj⟩
      · have h2 : m' = 2 * (m' / 2) := by omega
        rw [h2, irels_getD_even srels (m' / 2) hjlen] at hoccq
        have hlater : laterHit (irels srels) (m' / 2) q = true := by
          refine laterHit_of_occursAt (by omega) hm hocciq ?_
          rw [irels_getD_even srels i hi]
          omega
        have hdet : hitAny (irels srels) (m' / 2) q.length = true :=
          detect_at hjlen hoccq hqle hlater
        refine ⟨m' / 2, q.length, hjlen, hq1, ?_, hdet, ?_⟩
        · rw [relOf_irels srels _ hjlen]
          exact hqle
        · rw [relOf_irels srels _ hjlen, hri]
          apply ratio_le_ratio hnj hni
          rw [hqlen]
          rcases Nat.le_total ((srels.getD (m' / 2) []).length) L with hc | hc
          · rw [min_eq_left hc]
            calc L * (srels.getD (m' / 2) []).length
                ≤ (srels.getD i []).length * (srels.getD (m' / 2) []).length :=
                  Nat.mul_le_mul_right _ (by rw [hri] at hLn; exact hLn)
              _ = (srels.getD (m' / 2) []).length * (srels.getD i []).length :=
                  Nat.mul_comm _ _
          · rw [min_eq_right hc]
            exact Nat.mul_le_mul_left _ hnted
      · have h2 : m' = 2 * (m' / 2) + 1 := by omega
        rw [h2, irels_getD_odd srels (m' / 2) hjlen] at hoccq
        have hoccw := occursAt_winv hoccq
        rw [winv_winv] at hoccw
        have hocc2 := occursAt_winv hocciq
        rw [irels_getD_even srels i hi] at hocc2
        rw [← irels_getD_odd srels i hi] at hocc2
        have hm2 : 2 * i + 1 < (irels srels).length := by rw [length_irels]; omega
        have hlater : laterHit (irels srels) (m' / 2) (winv q) = true := by
          refine laterHit_of_occursAt (by omega) hm2 hocc2 ?_
          rw [length_winv, irels_getD_odd srels i hi, length_winv]
          omega
        have hdet : hitAny (irels srels) (m' / 2) (winv q).length = true :=
          detect_at hjlen hoccw (by rw [length_winv]; exact hqle) hlater
        refine ⟨m' / 2, (winv q).length, hjlen, ?_, ?_, hdet, ?_⟩
        · rw [length_winv]
          exact hq1
        · rw [relOf_irels srels _ hjlen, length_winv]
          exact hqle
        · rw [relOf_irels srels _ hjlen, hri, length_winv]
          apply ratio_le_ratio hnj hni
          rw [hqlen]
          rcases Nat.le_total ((srels.getD (m' / 2) []).length) L with hc | hc
          · rw [min_eq_left hc]
            calc L * (srels.getD (m' / 2) []).length
                ≤ (srels.getD i []).length * (srels.getD (m' / 2) []).length :=
                  Nat.mul_le_mul_right _ (by rw [hri] at hLn; exact hLn)
              _ = (srels.getD (m' / 2) []).length * (srels.getD i []).length :=
                  Nat.mul_comm _ _
          · rw [min_eq_right hc]
            exact Nat.mul_le_mul_left _ hnted
    · -- the second occurrence lies in relator i itself, at a different position
      have heq : m' = 2 * i := by omega
      subst heq
      have hss : s' ≠ si := by
        rcases hdiff with h | h
        · exact absurd rfl h
        · exact h
      have hocc'' : occursAt (relOf (irels srels) i) s'
          (subAt (relOf (irels srels) i) si L) := hocc'
      have hs'lt : s' < (relOf (irels srels) i).length := hocc''.1
      rcases Nat.lt_or_ge si s' with h1 | h2
      · have hw := windowHit_of_two occ0 hocc'' h1 hs'lt (by rw [hplen]; exact hLn) hpne
        rw [hplen] at hw
        refine ⟨i, L, hi, hL1, hLn, ?_, le_refl _⟩
        rw [hitAny_iff]
        refine ⟨si, hsi, ?_⟩
        unfold hit
        rw [Bool.or_eq_true]
        left
        exact hw
      · have h1 : s' < si := by omega
        have hw := windowHit_of_two hocc'' occ0 h1 hsi (by rw [hplen]; exact hLn) hpne
        rw [hplen] at hw
        refine ⟨i, L, hi, hL1, hLn, ?_, le_refl _⟩
        rw [hitAny_iff]
        refine ⟨s', hs'lt, ?_⟩
        unfold hit
        rw [Bool.or_eq_true]
        left
        exact hw

lemma firstHitL_none_iff {ws : List Word} {i lo : ℕ} : ∀ {fuel : ℕ},
    firstHitL ws i lo fuel = none ↔
      ∀ L', lo < L' → L' ≤ fuel → hitAny ws i L' = false := by
  intro fuel
  induction fuel with
  | zero =>
    simp only [firstHitL]
    constructor
    · intro _ L' h1 h2
      omega
    · intro _
      trivial
  | succ L ih =>
    simp only [firstHitL]
    by_cases hlo : L + 1 ≤ lo
    · rw [if_pos hlo]
      constructor
      · intro _ L' h1 h2
        omega
      · intro _
        rfl
    · rw [if_neg hlo]
      by_cases hh : hitAny ws i (L + 1) = true
      · rw [if_pos hh]
        constructor
        · intro hc
          exact absurd hc (by simp)
        · intro hall
          have := hall (L + 1) (by omega) (le_refl _)
          rw [hh] at this
          exact absurd this (by simp)
      · rw [if_neg hh]
        rw [ih]
        constructor
        · intro hall L' h1 h2
          rcases Nat.lt_or_ge L' (L + 1) with hc | hc
          · exact hall L' h1 (by omega)
          · have hL' : L' = L + 1 := by omega
            rw [hL']
            exact Bool.eq_false_iff.mpr hh
        · intro hall L' h1 h2
          exact hall L' h1 (by omega)

lemma firstHitL_some_iff {ws : List Word} {i lo : ℕ} : ∀ {fuel LL : ℕ},
    firstHitL ws i lo fuel = some LL ↔
      lo < LL ∧ LL ≤ fuel ∧ hitAny ws i LL = true ∧
        ∀ L', LL < L' → L' ≤ fuel → hitAny ws i L' = false := by
  intro fuel
  induction fuel with
  | zero =>
    intro LL
    simp only [firstHitL]
    constructor
    · intro hc
      exact absurd hc (by simp)
    · rintro ⟨_, h2, _, _⟩
      omega
  | succ L ih =>
    intro LL
    simp only [firstHitL]
    by_cases hlo : L + 1 ≤ lo
    · rw [if_pos hlo]
      constructor
      · intro hc
        exact absurd hc (by simp)
      · rintro ⟨h1, h2, _, _⟩
        omega
    · rw [if_neg hlo]
      by_cases hh : hitAny ws i (L + 1) = true
      · rw [if_pos hh]
        constructor
        · intro hc
          have hLL : LL = L + 1 := by
            have := Option.some.inj hc
            omega
          subst hLL
          exact ⟨by omega, le_refl _, hh, fun L' h1 h2 => by omega⟩
        · rintro ⟨h1, h2, h3, h4⟩
          rcases Nat.lt_or_ge LL (L + 1) with hc | hc
          · have := h4 (L + 1) (by omega) (le_refl _)
            rw [hh] at this
            exact absurd this (by simp)
          · have : LL = L + 1 := by omega
            rw [this]
      · rw [if_neg hh]
        rw [ih]
        constructor
        · rintro ⟨h1, h2, h3, h4⟩
          refine ⟨h1, by omega, h3, ?_⟩
          intro L' hc1 hc2
          rcases Nat.lt_or_ge L' (L + 1) with hc | hc
          · exact h4 L' hc1 (by omega)
          · have hL' : L' = L + 1 := by omega
            rw [hL']
            exact Bool.eq_false_iff.mpr hh
        · rintro ⟨h1, h2, h3, h4⟩
          have hne : LL ≠ L + 1 := by
            intro hc
            rw [hc] at h3
            exact hh h3
          refine ⟨h1, by omega, h3, ?_⟩
          intro L' hc1 hc2
          exact h4 L' hc1 (by omega)

lemma lo_lt_iff {br : ℚ} {n L : ℕ} (hbr : 0 ≤ br) (hn : 0 < n) :
    ((br * (n : ℚ)).num / (((br * (n : ℚ)).den : ℤ))).toNat < L ↔
      br < (L : ℚ) / (n : ℚ) := by
  have hnq : (0 : ℚ) < (n : ℚ) := by exact_mod_cast hn
  have hfl : (br * (n : ℚ)).num / (((br * (n : ℚ)).den : ℤ)) = ⌊br * (n : ℚ)⌋ :=
    (Rat.floor_def).symm
  rw [hfl]
  have h0 : 0 ≤ ⌊br * (n : ℚ)⌋ := Int.floor_nonneg.mpr (by positivity)
  have h1 : ⌊br * (n : ℚ)⌋.toNat < L ↔ ⌊br * (n : ℚ)⌋ < (L : ℤ) := by omega
  rw [h1, Int.floor_lt, lt_div_iff hnq]
  constructor
  · intro h
    calc br * (n : ℚ) < ((L : ℤ) : ℚ) := h
      _ = (L : ℚ) := by push_cast; ring
  · intro h
    calc br * (n : ℚ) < (L : ℚ) := h
      _ = ((L : ℤ) : ℚ) := by push_cast; ring

lemma foldl_max_init_le (f : ℕ → ℚ) :
    ∀ (l : List ℕ) (b : ℚ), b ≤ l.foldl (fun acc t => max acc (f t)) b := by
  intro l
  induction l with
  | nil => intro b; simp
  | cons a rest ih =>
    intro b
    rw [List.foldl_cons]
    exact le_trans (le_max_left _ _) (ih _)

lemma foldl_max_le (f : ℕ → ℚ) :
    ∀ (l : List ℕ) (b c : ℚ), b ≤ c → (∀ t ∈ l, f t ≤ c) →
      l.foldl (fun acc t => max acc (f t)) b ≤ c := by
  intro l
  induction l with
  | nil => intro b c hb _; simpa using hb
  | cons a rest ih =>
    intro b c hb hf
    rw [List.foldl_cons]
    exact ih _ c (max_le hb (hf a (by simp))) (fun t ht => hf t (by simp [ht]))

lemma le_foldl_max (f : ℕ → ℚ) :
    ∀ (l : List ℕ) (b : ℚ) (t : ℕ), t ∈ l →
      f t ≤ l.foldl (fun acc x => max acc (f x)) b := by
  intro l
  induction l with
  | nil => intro b t h; simp at h
  | cons a rest ih =>
    intro b t hmem
    rw [List.foldl_cons]
    rcases List.mem_cons.mp hmem with rfl | h2
    · exact le_trans (le_max_right _ _) (foldl_max_init_le f rest _)
    · exact ih _ t h2

lemma dval_nonneg (ws : List Word) (i : ℕ) : 0 ≤ dval ws i := by
  unfold dval
  cases hfh : firstHitL ws i 0 (relOf ws i).length with
  | none => exact le_refl 0
  | some L => exact div_nonneg (by positivity) (by positivity)

lemma dval_le_trueMax {srels : List Word} {i : ℕ} (hi : i < srels.length) :
    dval (irels srels) i ≤ trueMax srels := by
  unfold dval
  cases hfh : firstHitL (irels srels) i 0 (relOf (irels srels) i).length with
  | none => exact trueMax_nonneg srels
  | some L =>
    obtain ⟨h1, h2, h3, _⟩ := firstHitL_some_iff.mp hfh
    obtain ⟨si, hsi, hhit⟩ := hitAny_iff.mp h3
    exact ratio_le_trueMax hi (by omega) h2 hsi (hit_twoOcc hi hsi (by omega) h2 hhit)

lemma hitAny_le_dval {ws : List Word} {i L : ℕ} (hL1 : 1 ≤ L)
    (hLn : L ≤ (relOf ws i).length) (hn : 0 < (relOf ws i).length)
    (hh : hitAny ws i L = true) :
    (L : ℚ) / ((relOf ws i).length : ℚ) ≤ dval ws i := by
  have hnq : (0 : ℚ) < ((relOf ws i).length : ℚ) := by exact_mod_cast hn
  unfold dval
  cases hfh : firstHitL ws i 0 (relOf ws i).length with
  | none =>
    have hfalse := firstHitL_none_iff.mp hfh L (by omega) hLn
    rw [hh] at hfalse
    exact absurd hfalse (by simp)
  | some Lb =>
    obtain ⟨_, h2, _, h4⟩ := firstHitL_some_iff.mp hfh
    have hLLb : L ≤ Lb := by
      by_contra hc
      push_neg at hc
      have hfalse := h4 L hc hLn
      rw [hh] at hfalse
      exact absurd hfalse (by simp)
    exact (div_le_div_right hnq).mpr (by exact_mod_cast hLLb)

lemma cp_firstHitL_none {ws : List Word} {i : ℕ} {br : ℚ} (hbr : 0 ≤ br)
    (hn : 0 < (relOf ws i).length) (hd : dval ws i ≤ br) :
    firstHitL ws i (((br * ((relOf ws i).length : ℚ)).num /
      (((br * ((relOf ws i).length : ℚ)).den : ℤ))).toNat) (relOf ws i).length = none := by
  rw [firstHitL_none_iff]
  intro L' h1 h2
  by_contra hc
  rw [Bool.not_eq_false] at hc
  have hle := hitAny_le_dval (by omega) h2 hn hc
  have hlt := (lo_lt_iff hbr hn).mp h1
  linarith

lemma cp_firstHitL_some {ws : List Word} {i : ℕ} {br : ℚ} (hbr : 0 ≤ br)
    (hn : 0 < (relOf ws i).length) (hd : br < dval ws i) :
    ∃ L, firstHitL ws i (((br * ((relOf ws i).length : ℚ)).num /
        (((br * ((relOf ws i).length : ℚ)).den : ℤ))).toNat) (relOf ws i).length = some L ∧
      (L : ℚ) / ((relOf ws i).length : ℚ) = dval ws i := by
  cases hfh : firstHitL ws i 0 (relOf ws i).length with
  | none =>
    have h0 : dval ws i = 0 := by unfold dval; rw [hfh]
    rw [h0] at hd
    linarith
  | some Lb =>
    have hdval : dval ws i = (Lb : ℚ) / ((relOf ws i).length : ℚ) := by
      unfold dval
      rw [hfh]
    obtain ⟨h1, h2, h3, h4⟩ := firstHitL_some_iff.mp hfh
    refine ⟨Lb, ?_, hdval.symm⟩
    rw [firstHitL_some_iff]
    refine ⟨?_, h2, h3, h4⟩
    rw [lo_lt_iff hbr hn]
    rw [← hdval] at *
    exact hd

lemma cpLoop_eq {ws : List Word} {Lambda : ℚ} :
    ∀ (l : List ℕ) (br : ℚ), (∀ i ∈ l, 0 < (relOf ws i).length) → 0 ≤ br →
      br < 1 / Lambda →
      cpLoop ws Lambda l br =
        if 1 / Lambda ≤ l.foldl (fun acc i => max acc (dval ws i)) br then 1
        else l.foldl (fun acc i => max acc (dval ws i)) br := by
  intro l
  induction l with
  | nil =>
    intro br _ hbr hlt
    rw [List.foldl_nil]
    unfold cpLoop
    rw [if_neg (not_le.mpr hlt)]
  | cons i rest ih =>
    intro br hpos hbr hlt
    rw [List.foldl_cons]
    have hn : 0 < (relOf ws i).length := hpos i (by simp)
    by_cases hc : dval ws i ≤ br
    · have hnone := cp_firstHitL_none hbr hn hc
      unfold cpLoop
      split
      · rw [max_eq_left hc]
        exact ih br (fun t ht => hpos t (by simp [ht])) hbr hlt
      · rename_i L' heq
        rw [hnone] at heq
        exact absurd heq (by simp)
    · push_neg at hc
      obtain ⟨L, hsome, hLd⟩ := cp_firstHitL_some hbr hn hc
      unfold cpLoop
      split
      · rename_i heq
        rw [hsome] at heq
        exact absurd heq (by simp)
      · rename_i L' heq
        rw [hsome] at heq
        have hL' : L = L' := Option.some.inj heq
        subst hL'
        rw [hLd, max_eq_right (le_of_lt hc)]
        by_cases ht : 1 / Lambda ≤ dval ws i
        · rw [if_pos ht]
          have hR : 1 / Lambda ≤ rest.foldl (fun acc i => max acc (dval ws i)) (dval ws i) :=
            le_trans ht (foldl_max_init_le _ rest _)
          rw [if_pos hR]
        · rw [if_neg ht]
          push_neg at ht
          exact ih (dval ws i) (fun t htt => hpos t (by simp [htt]))
            (le_trans hbr (le_of_lt hc)) ht

lemma occCount_perm {ws ws' : List Word} (h : ws.Perm ws') (p : Word) :
    occCount ws p = occCount ws' p := by
  unfold occCount
  exact List.Perm.sum_eq (h.map _)

lemma twoOcc_perm {ws ws' : List Word} (h : ws.Perm ws') {p : Word} (ht : TwoOcc ws p) :
    TwoOcc ws' p := by
  unfold TwoOcc at ht ⊢
  rw [← occCount_perm h]
  exact ht

lemma irels_perm {rels rels' : List Word} (h : rels.Perm rels') :
    (irels rels).Perm (irels rels') := List.Perm.flatMap_right _ h

lemma trueMax_le_of_perm {rels rels' : List Word} (h : rels.Perm rels') :
    trueMax rels ≤ trueMax rels' := by
  refine trueMax_le (trueMax_nonneg _) ?_
  intro i L si hi hL1 hLn hsi hT
  have hri : relOf (irels rels) i = rels.getD i [] := relOf_irels rels i hi
  have hmem : rels.getD i [] ∈ rels' := h.mem_iff.mp
    (by rw [List.getD_eq_getElem _ _ hi]; exact List.getElem_mem _)
  obtain ⟨i', hi', heq⟩ := List.getElem_of_mem hmem
  have hri' : relOf (irels rels') i' = rels.getD i [] := by
    rw [relOf_irels rels' i' hi', List.getD_eq_getElem _ _ hi', heq]
  have hT' : TwoOcc (irels rels') (subAt (relOf (irels rels') i') si L) := by
    rw [hri', ← hri]
    exact twoOcc_perm (irels_perm h) hT
  have hres := ratio_le_trueMax hi' hL1 (by rw [hri', ← hri]; exact hLn)
    (by rw [hri', ← hri]; exact hsi) hT'
  rw [hri', ← hri] at hres
  exact hres

lemma trueMax_sortRels (rels : List Word) : trueMax (sortRels rels) = trueMax rels :=
  le_antisymm (trueMax_le_of_perm (List.mergeSort_perm rels _))
    (trueMax_le_of_perm (List.mergeSort_perm rels _).symm)

lemma sortRels_sorted (rels : List Word) :
    List.Pairwise (fun a b : Word => a.length ≤ b.length) (sortRels rels) := by
  have h := @List.sorted_mergeSort Word (fun a b => decide (a.length ≤ b.length))
    (by intro a b c hab hbc; simp only [decide_eq_true_eq] at hab hbc ⊢; omega)
    (by intro a b; simp only [Bool.or_eq_true, decide_eq_true_eq]; omega)
    rels
  refine h.imp ?_
  intro a b hab
  simpa using hab

lemma one_le_minLen {rels : List Word} (hrels : rels ≠ []) (hne : ∀ r ∈ rels, r ≠ []) :
    1 ≤ minLen rels := by
  unfold minLen
  cases hmin : (rels.map List.length).min? with
  | none =>
    rw [List.min?_eq_none_iff] at hmin
    exact absurd (List.map_eq_nil_iff.mp hmin) hrels
  | some m =>
    have hmem : m ∈ rels.map List.length :=
      List.min?_mem (fun a b => min_choice a b) hmin
    obtain ⟨r, hr, hrm⟩ := List.mem_map.mp hmem
    have hr1 : 1 ≤ r.length := List.length_pos.mpr (hne r hr)
    simp only [Option.getD_some]
    omega

lemma CprimeboundCore_eq {rels : List Word} (hrels : rels ≠ []) (hne : ∀ r ∈ rels, r ≠ [])
    (Lambda : ℚ) :
    CprimeboundCore rels Lambda =
      if 1 / Lambda ≤ max (1 / (minLen rels : ℚ)) (trueMax rels) then 1
      else max (1 / (minLen rels : ℚ)) (trueMax rels) := by
  have hml : 1 ≤ minLen rels := one_le_minLen hrels hne
  have hmlq : (1 : ℚ) ≤ (minLen rels : ℚ) := by exact_mod_cast hml
  have hbr0 : 0 < 1 / (minLen rels : ℚ) := by positivity
  unfold CprimeboundCore
  by_cases h1 : 1 / Lambda ≤ 1 / (minLen rels : ℚ)
  · rw [if_pos h1, if_pos (le_trans h1 (le_max_left _ _))]
  · rw [if_neg h1]
    push_neg at h1
    have hlen : (sortRels rels).length = rels.length := List.length_mergeSort rels
    have hperm : (sortRels rels).Perm rels := List.mergeSort_perm rels _
    have hnes : ∀ r ∈ sortRels rels, r ≠ [] := fun r hr => hne r (hperm.mem_iff.mp hr)
    have hpos : ∀ i ∈ List.range rels.length,
        0 < (relOf (irels (sortRels rels)) i).length := by
      intro i hi
      rw [List.mem_range] at hi
      rw [relOf_irels (sortRels rels) i (by omega)]
      exact getD_length_pos hnes (by omega)
    rw [cpLoop_eq (List.range rels.length) (1 / (minLen rels : ℚ)) hpos
      (le_of_lt hbr0) h1]
    have hfold : (List.range rels.length).foldl
        (fun acc i => max acc (dval (irels (sortRels rels)) i)) (1 / (minLen rels : ℚ)) =
        max (1 / (minLen rels : ℚ)) (trueMax rels) := by
      apply le_antisymm
      · apply foldl_max_le
        · exact le_max_left _ _
        · intro t ht
          rw [List.mem_range] at ht
          calc dval (irels (sortRels rels)) t ≤ trueMax (sortRels rels) :=
              dval_le_trueMax (by omega)
            _ = trueMax rels := trueMax_sortRels rels
            _ ≤ _ := le_max_right _ _
      · rw [max_le_iff]
        constructor
        · exact foldl_max_init_le _ _ _
        · rw [← trueMax_sortRels rels]
          apply trueMax_le
          · exact le_trans (le_of_lt hbr0) (foldl_max_init_le _ _ _)
          · intro i L si hi hL1 hLn hsi hT
            obtain ⟨j, L', hj, hL'1, hL'n, hhit, hratio⟩ :=
              twoOcc_detected (sortRels_sorted rels) hnes hi hsi hL1 hLn hT
            have hnj : 0 < (relOf (irels (sortRels rels)) j).length := by
              rw [relOf_irels (sortRels rels) j hj]
              exact getD_length_pos hnes hj
            calc (L : ℚ) / ((relOf (irels (sortRels rels)) i).length : ℚ) ≤
                (L' : ℚ) / ((relOf (irels (sortRels rels)) j).length : ℚ) := hratio
              _ ≤ dval (irels (sortRels rels)) j := hitAny_le_dval hL'1 hL'n hnj hhit
              _ ≤ _ := le_foldl_max _ (List.range rels.length) _ j
                  (List.mem_range.mpr (by omega))
    rw [hfold]

/-- C2: counterexample to the claimed short-circuit contract of `Cprimebound`.
For the relator list `[a]` with `Lambda = 1` the function returns `1` from its
`1/min(len)` baseline although the true maximum piece ratio is `0 < 1/Lambda`,
and for `[ab]` it returns the baseline `1/2` rather than the true maximum `0`. -/
theorem Cprimebound_not_exact_true_maximum :
    Cprimebound [[1]] 1 = some 1 ∧ ¬ ((1 : ℚ) / 1 ≤ trueMax [[1]]) ∧
      Cprimebound [[1, 2]] 1 = some (1 / 2) ∧ trueMax [[1, 2]] = 0 := by
  have ht1 : trueMax [[1]] = 0 := by
    have hpa : pieceAdds [[1]] = [(0, 1, 0)] := by decide
    have h1 : ¬ TwoOcc (irels [[1]]) (subAt (relOf (irels [[1]]) 0) 0 1) := by decide
    unfold trueMax
    rw [hpa]
    simp [h1]
  have ht2 : trueMax [[1, 2]] = 0 := by
    have hpa : pieceAdds [[1, 2]] = [(0, 1, 0), (0, 1, 1), (0, 2, 0), (0, 2, 1)] := by
      decide
    have h1 : ¬ TwoOcc (irels [[1, 2]]) (subAt (relOf (irels [[1, 2]]) 0) 0 1) := by
      decide
    have h2 : ¬ TwoOcc (irels [[1, 2]]) (subAt (relOf (irels [[1, 2]]) 0) 1 1) := by
      decide
    have h3 : ¬ TwoOcc (irels [[1, 2]]) (subAt (relOf (irels [[1, 2]]) 0) 0 2) := by
      decide
    have h4 : ¬ TwoOcc (irels [[1, 2]]) (subAt (relOf (irels [[1, 2]]) 0) 1 2) := by
      decide
    unfold trueMax
    rw [hpa]
    simp [h1, h2, h3, h4]
  have hm1 : minLen [[1]] = 1 := by decide
  have hm2 : minLen [[1, 2]] = 2 := by decide
  refine ⟨?_, ?_, ?_, ht2⟩
  · unfold Cprimebound
    rw [if_pos (by decide), if_neg (by decide), if_neg (by norm_num : ¬(1 : ℚ) = 0)]
    rw [CprimeboundCore_eq (by decide) (by decide) 1, ht1, hm1]
    norm_num
  · rw [ht1]
    norm_num
  · unfold Cprimebound
    rw [if_pos (by decide), if_neg (by decide), if_neg (by norm_num : ¬(1 : ℚ) = 0)]
    rw [CprimeboundCore_eq (by decide) (by decide) 1, ht2, hm2]
    norm_num

/-- C2 (amended): for a nonempty list of cyclically reduced nonempty relators
and every positive `Lambda`, `Cprimebound(relatorlist, Lambda)` returns
`max(1/min(len(r)), trueMax)` where `trueMax` is the maximum, over all relators
and all of their cyclic subwords that are pieces (two distinct cyclic
occurrences among the relators and inverses), of piece length over relator
length — except that it returns exactly `1` as soon as that value reaches the
threshold `1/Lambda`.  In particular the baseline `1/min(len(r))` is part of
the returned value even when no piece exists. -/
theorem Cprimebound_eq_thresholded_max {rels : List Word}
    (hcyc : rels.all cycReduced = true) (hrels : rels ≠ []) (hnil : [] ∉ rels)
    (Lambda : ℚ) (hL : 0 < Lambda) :
    Cprimebound rels Lambda =
      some (if 1 / Lambda ≤ max (1 / (minLen rels : ℚ)) (trueMax rels) then 1
        else max (1 / (minLen rels : ℚ)) (trueMax rels)) := by
  unfold Cprimebound
  rw [if_pos hcyc, if_neg (not_or.mpr ⟨hrels, hnil⟩), if_neg hL.ne']
  rw [CprimeboundCore_eq hrels (fun r hr h0 => hnil (h0 ▸ hr)) Lambda]

/-- Witness for the C2 amended theorem at the concrete input `[ab]`,
`Lambda = 1`. -/
theorem Cprimebound_eq_thresholded_max_witness :
    Cprimebound [[1, 2]] 1 =
      some (if 1 / 1 ≤ max (1 / (minLen [[1, 2]] : ℚ)) (trueMax [[1, 2]]) then 1
        else max (1 / (minLen [[1, 2]] : ℚ)) (trueMax [[1, 2]])) :=
  Cprimebound_eq_thresholded_max (by decide) (by decide) (by decide) 1 (by norm_num)

lemma ceil_div_eq {a b : ℤ} (hb : 0 < b) :
    ⌈(a : ℚ) / (b : ℚ)⌉ = (a + b - 1) / b := by
  have hbq : (0 : ℚ) < (b : ℚ) := by exact_mod_cast hb
  rw [Int.ceil_eq_iff]
  have heq := Int.ediv_add_emod (a + b - 1) b
  have hr0 : 0 ≤ (a + b - 1) % b := Int.emod_nonneg _ (by omega)
  have hr1 : (a + b - 1) % b < b := Int.emod_lt_of_pos _ hb
  constructor
  · rw [lt_div_iff hbq]
    have hlt : ((a + b - 1) / b - 1) * b < a := by nlinarith [heq]
    exact_mod_cast hlt
  · rw [div_le_iff hbq]
    have hle : a ≤ ((a + b - 1) / b) * b := by nlinarith [heq]
    exact_mod_cast hle

lemma ceil_den_num (cb : ℚ) (hnum : 0 < cb.num) :
    ⌈(cb.den : ℚ) / (cb.num : ℚ)⌉ = ((cb.den : ℤ) + cb.num - 1) / cb.num := by
  have h1 : ((cb.den : ℚ)) = (((cb.den : ℤ) : ℚ)) := by push_cast; ring
  rw [h1, ceil_div_eq hnum]

/-- C1: for cyclically reduced relators with a successfully computed `C'` bound
`cb`, `smallcancellation(relatorlist)` (no precomputed bound) returns `True`
exactly when `cb < 1/6`, or the ceiling estimate `Cest = ceil(den(cb)/num(cb))`
together with `T` satisfies `(Cest>=5 and T>=4) or (Cest>=4 and T>=5) or
(Cest>=3 and T>=7)`, or the exact `C` value capped at `7` together with `T`
satisfies `C>=7 or (C>=5 and T>=4) or (C>=4 and T>=5) or (C>=3 and T>=7)`;
otherwise it returns `False`. -/
theorem smallcancellation_decision {rels : List Word}
    (hcyc : rels.all cycReduced = true) {cb : ℚ}
    (hcb : Cprimebound rels 1 = some cb) :
    (smallcancellation rels none = some true ↔
      (cb < 1 / 6 ∨
        ((5 ≤ ⌈(cb.den : ℚ) / (cb.num : ℚ)⌉ ∧ 4 ≤ Tcore rels) ∨
         (4 ≤ ⌈(cb.den : ℚ) / (cb.num : ℚ)⌉ ∧ 5 ≤ Tcore rels) ∨
         (3 ≤ ⌈(cb.den : ℚ) / (cb.num : ℚ)⌉ ∧ 7 ≤ Tcore rels)) ∨
        (7 ≤ Ccore rels 7 ∨ (5 ≤ Ccore rels 7 ∧ 4 ≤ Tcore rels) ∨
         (4 ≤ Ccore rels 7 ∧ 5 ≤ Tcore rels) ∨
         (3 ≤ Ccore rels 7 ∧ 7 ≤ Tcore rels)))) ∧
    (smallcancellation rels none = some false ↔
      ¬ (cb < 1 / 6 ∨
        ((5 ≤ ⌈(cb.den : ℚ) / (cb.num : ℚ)⌉ ∧ 4 ≤ Tcore rels) ∨
         (4 ≤ ⌈(cb.den : ℚ) / (cb.num : ℚ)⌉ ∧ 5 ≤ Tcore rels) ∨
         (3 ≤ ⌈(cb.den : ℚ) / (cb.num : ℚ)⌉ ∧ 7 ≤ Tcore rels)) ∨
        (7 ≤ Ccore rels 7 ∨ (5 ≤ Ccore rels 7 ∧ 4 ≤ Tcore rels) ∨
         (4 ≤ Ccore rels 7 ∧ 5 ≤ Tcore rels) ∨
         (3 ≤ Ccore rels 7 ∧ 7 ≤ Tcore rels)))) := by
  unfold smallcancellation
  rw [if_pos hcyc]
  simp only [hcb]
  by_cases h1 : cb < 1 / 6
  · rw [if_pos h1]
    exact ⟨⟨fun _ => Or.inl h1, fun _ => rfl⟩,
      ⟨fun hco => absurd hco (by simp), fun hn => absurd (Or.inl h1) hn⟩⟩
  · rw [if_neg h1]
    have hnum : 0 < cb.num := by
      rw [Rat.num_pos]
      by_contra hc
      push_neg at hc
      exact h1 (by linarith [show (0 : ℚ) < 1 / 6 by norm_num])
    rw [ceil_den_num cb hnum]
    by_cases h2 : (5 ≤ ((cb.den : ℤ) + cb.num - 1) / cb.num ∧ 4 ≤ Tcore rels) ∨
        (4 ≤ ((cb.den : ℤ) + cb.num - 1) / cb.num ∧ 5 ≤ Tcore rels) ∨
        (3 ≤ ((cb.den : ℤ) + cb.num - 1) / cb.num ∧ 7 ≤ Tcore rels)
    · rw [if_pos h2]
      exact ⟨⟨fun _ => Or.inr (Or.inl h2), fun _ => rfl⟩,
        ⟨fun hco => absurd hco (by simp), fun hn => absurd (Or.inr (Or.inl h2)) hn⟩⟩
    · rw [if_neg h2]
      by_cases h3 : 7 ≤ Ccore rels 7 ∨ (5 ≤ Ccore rels 7 ∧ 4 ≤ Tcore rels) ∨
          (4 ≤ Ccore rels 7 ∧ 5 ≤ Tcore rels) ∨ (3 ≤ Ccore rels 7 ∧ 7 ≤ Tcore rels)
      · rw [if_pos h3]
        exact ⟨⟨fun _ => Or.inr (Or.inr h3), fun _ => rfl⟩,
          ⟨fun hco => absurd hco (by simp), fun hn => absurd (Or.inr (Or.inr h3)) hn⟩⟩
      · rw [if_neg h3]
        refine ⟨⟨fun hco => absurd hco (by simp), fun hD => ?_⟩,
          ⟨fun _ => ?_, fun _ => rfl⟩⟩
        · rcases hD with h | h | h
          · exact absurd h h1
          · exact absurd h h2
          · exact absurd h h3
        · intro hD
          rcases hD with h | h | h
          · exact absurd h h1
          · exact absurd h h2
          · exact absurd h h3

lemma Cprimebound_single_a : Cprimebound [[1]] 1 = some 1 := by
  have ht1 : trueMax [[1]] = 0 := by
    have hpa : pieceAdds [[1]] = [(0, 1, 0)] := by decide
    have h1 : ¬ TwoOcc (irels [[1]]) (subAt (relOf (irels [[1]]) 0) 0 1) := by decide
    unfold trueMax
    rw [hpa]
    simp [h1]
  have hm1 : minLen [[1]] = 1 := by decide
  unfold Cprimebound
  rw [if_pos (by decide), if_neg (by decide)]
  rw [CprimeboundCore_eq (by decide) (by decide) 1, ht1, hm1]
  norm_num

/-- Witness for the C1 decision theorem at the concrete input `[a]`, whose
`C'` bound is `1`. -/
theorem smallcancellation_decision_witness :
    (smallcancellation [[1]] none = some true ↔
      ((1 : ℚ) < 1 / 6 ∨
        ((5 ≤ ⌈((1 : ℚ).den : ℚ) / ((1 : ℚ).num : ℚ)⌉ ∧ 4 ≤ Tcore [[1]]) ∨
         (4 ≤ ⌈((1 : ℚ).den : ℚ) / ((1 : ℚ).num : ℚ)⌉ ∧ 5 ≤ Tcore [[1]]) ∨
         (3 ≤ ⌈((1 : ℚ).den : ℚ) / ((1 : ℚ).num : ℚ)⌉ ∧ 7 ≤ Tcore [[1]])) ∨
        (7 ≤ Ccore [[1]] 7 ∨ (5 ≤ Ccore [[1]] 7 ∧ 4 ≤ Tcore [[1]]) ∨
         (4 ≤ Ccore [[1]] 7 ∧ 5 ≤ Tcore [[1]]) ∨
         (3 ≤ Ccore [[1]] 7 ∧ 7 ≤ Tcore [[1]])))) ∧
    (smallcancellation [[1]] none = some false ↔
      ¬ ((1 : ℚ) < 1 / 6 ∨
        ((5 ≤ ⌈((1 : ℚ).den : ℚ) / ((1 : ℚ).num : ℚ)⌉ ∧ 4 ≤ Tcore [[1]]) ∨
         (4 ≤ ⌈((1 : ℚ).den : ℚ) / ((1 : ℚ).num : ℚ)⌉ ∧ 5 ≤ Tcore [[1]]) ∨
         (3 ≤ ⌈((1 : ℚ).den : ℚ) / ((1 : ℚ).num : ℚ)⌉ ∧ 7 ≤ Tcore [[1]])) ∨
        (7 ≤ Ccore [[1]] 7 ∨ (5 ≤ Ccore [[1]] 7 ∧ 4 ≤ Tcore [[1]]) ∨
         (4 ≤ Ccore [[1]] 7 ∧ 5 ≤ Tcore [[1]]) ∨
         (3 ≤ Ccore [[1]] 7 ∧ 7 ≤ Tcore [[1]])))) :=
  smallcancellation_decision (by decide) Cprimebound_single_a

/-- C10: supplying the correctly precomputed `C'` bound does not change the
decision of `smallcancellation`. -/
theorem smallcancellation_precomputed_consistent {rels : List Word} {q : ℚ}
    (hq : Cprimebound rels 1 = some q) :
    smallcancellation rels (some q) = smallcancellation rels none := by
  unfold smallcancellation
  by_cases hcyc : rels.all cycReduced = true
  · rw [if_pos hcyc, if_pos hcyc]
    simp only [hq]
  · rw [if_neg hcyc, if_neg hcyc]

/-- Witness for the C10 theorem at the concrete input `[a]`. -/
theorem smallcancellation_precomputed_consistent_witness :
    smallcancellation [[1]] (some 1) = smallcancellation [[1]] none :=
  smallcancellation_precomputed_consistent Cprimebound_single_a
